import Mathlib

/-!
Shallow embedding of the `ethercat-soem` crate's object-dictionary discovery,
PDO-assignment resolution, value codec and process-data accessor
(`src/lib.rs`, `src/util.rs`), together with proofs about the claims of the
specification.

Modelling conventions:
* Machine integers are `Nat` (unsigned) or `Int` (signed) with explicit
  ranges/`% 2^w` where overflow matters; byte buffers are `List Nat` whose
  well-formed elements are `< 256`.
* The host byte order used by `to_ne_bytes`/`from_ne_bytes` is little-endian
  (the crate is built for little-endian hosts).
* `f32`/`f64` values are modelled by their 4/8-byte IEEE bit patterns, as
  `Nat`; Rust's `to_ne_bytes`/`from_ne_bytes` are exactly the bijection
  between those bit patterns and the raw bytes.
* Fallible Rust code (`Result`) becomes `Except Error`; a Rust
  index-out-of-bounds panic is a distinct `Outcome.panicked` result.
* Mailbox traffic through the external SOEM engine is modelled by oracle
  functions packaged in a `Bus` structure: `none`/failure corresponds to a
  non-positive working counter.
-/

/-- Sync-manager communication types (`ec::SmType` of the `ethercat-types`
crate, consumed by `src/lib.rs`).  Numeric codes follow the CoE standard used
by the source (`MbxRd = 2` per the comment in `Master::sm_types`,
`Outputs = 3`, `Inputs = 4`). -/
inductive SmType where
  | unused
  | mbxWr
  | mbxRd
  | outputs
  | inputs
  deriving DecidableEq, Repr

/-- Decoding of the raw sync-manager type byte (`ec::SmType::try_from`). -/
def smTypeFromU8 (x : Nat) : Option SmType :=
  match x with
  | 0 => some .unused
  | 1 => some .mbxWr
  | 2 => some .mbxRd
  | 3 => some .outputs
  | 4 => some .inputs
  | _ => none

/-- CoE data types (`ec::DataType`); only the variants handled by
`src/util.rs` are enumerated individually, plus representatives (`i24`,
`u24`, `timeOfDay`) of the variants the codec rejects as unsupported. -/
inductive DataType where
  | bool
  | byte
  | i8
  | i16
  | i32
  | i64
  | u8
  | u16
  | u32
  | u64
  | f32
  | f64
  | string
  | u8Array
  | raw
  | i24
  | u24
  | timeOfDay
  deriving DecidableEq, Repr

/-- Dynamically typed EtherCAT value (`ec::Value`).  `f32`/`f64` carry the
IEEE bit pattern; `stringV` carries the raw bytes (the Rust value is the
lossy UTF-8 text of those bytes; no claim depends on the text itself). -/
inductive Value where
  | bool (b : Bool)
  | byte (x : Nat)
  | i8 (x : Int)
  | i16 (x : Int)
  | i32 (x : Int)
  | i64 (x : Int)
  | u8 (x : Nat)
  | u16 (x : Nat)
  | u32 (x : Nat)
  | u64 (x : Nat)
  | f32 (bits : Nat)
  | f64 (bits : Nat)
  | stringV (bytes : List Nat)
  | u8Array (bytes : List Nat)
  | raw (bytes : List Nat)
  deriving DecidableEq, Repr

/-- CoE entry index: 16-bit object index plus 8-bit subindex
(`ec::EntryIdx`). -/
structure EntryIdx where
  idx : Nat
  subIdx : Nat
  deriving DecidableEq, Repr

/-- Byte/bit offset into a process-data image (`ec::Offset`). -/
structure Offset where
  byte : Nat
  bit : Nat
  deriving DecidableEq, Repr

/-- Typed errors of the crate (`src/error.rs`, spelling kept from the
source).  Only the variants reachable from the embedded functions are
modelled. -/
inductive Error where
  | readOdList (slave : Nat)
  | readOdDesc (pos : Nat)
  | readOeList (pos : Nat)
  | readSdo (slave : Nat) (idx : EntryIdx)
  | invalidSmType
  | noOutputPdos (slave : Nat)
  | pdoEntryNotFound (idx : EntryIdx)
  | slaveNotFound (slave : Nat)
  | unexpectedDataType
  | unsuportedDataType (dt : DataType)
  | valueFromEmptyBuf
  | valueConversion
  | unsuportedValue (v : Value)
  deriving DecidableEq, Repr

/-- Result of an operation that may also hit a Rust panic
(slice/array index out of bounds). -/
inductive Outcome (α : Type) where
  | ok (a : α)
  | err (e : Error)
  | panicked
  deriving DecidableEq, Repr

/-- `byte_cnt` of `src/lib.rs`: bytes needed for a given number of bits. -/
def byte_cnt (bits : Nat) : Nat :=
  if bits % 8 = 0 then bits / 8 else bits / 8 + 1

/-- Little-endian bytes of `n`, width `w` (Rust `to_ne_bytes` on an
unsigned integer; the host is little-endian). -/
def natToBytesLE : Nat → Nat → List Nat
  | 0, _ => []
  | w + 1, n => n % 256 :: natToBytesLE w (n / 256)

/-- Value of a little-endian byte string (Rust `from_ne_bytes`). -/
def bytesToNatLE : List Nat → Nat
  | [] => 0
  | b :: bs => b + 256 * bytesToNatLE bs

/-- `value_from_slice` of `src/util.rs`: decode a typed value from a raw
byte slice at a bit offset.  The exact-length requirement of the fixed-width
branches models Rust's `raw.try_into()` on slices, which succeeds only when
the slice length equals the array width (otherwise
`Error::ValueConversion`). -/
def value_from_slice (dt : DataType) (raw : List Nat) (bitOffset : Nat) :
    Except Error Value :=
  if raw.isEmpty then .error .valueFromEmptyBuf
  else
    match dt with
    | .bool => .ok (.bool (decide (raw.headD 0 &&& (1 <<< bitOffset) ≠ 0)))
    | .byte => .ok (.byte (raw.headD 0))
    | .i8 =>
      .ok (.i8 (if raw.headD 0 < 128 then (raw.headD 0 : Int)
                else (raw.headD 0 : Int) - 256))
    | .i16 =>
      if raw.length = 2 then
        .ok (.i16 (if bytesToNatLE raw < 32768 then (bytesToNatLE raw : Int)
                   else (bytesToNatLE raw : Int) - 65536))
      else .error .valueConversion
    | .i32 =>
      if raw.length = 4 then
        .ok (.i32 (if bytesToNatLE raw < 2147483648 then (bytesToNatLE raw : Int)
                   else (bytesToNatLE raw : Int) - 4294967296))
      else .error .valueConversion
    | .i64 =>
      if raw.length = 8 then
        .ok (.i64 (if bytesToNatLE raw < 9223372036854775808 then
                     (bytesToNatLE raw : Int)
                   else (bytesToNatLE raw : Int) - 18446744073709551616))
      else .error .valueConversion
    | .u8 => .ok (.u8 (raw.headD 0))
    | .u16 =>
      if raw.length = 2 then .ok (.u16 (bytesToNatLE raw))
      else .error .valueConversion
    | .u32 =>
      if raw.length = 4 then .ok (.u32 (bytesToNatLE raw))
      else .error .valueConversion
    | .u64 =>
      if raw.length = 8 then .ok (.u64 (bytesToNatLE raw))
      else .error .valueConversion
    | .f32 =>
      if raw.length = 4 then .ok (.f32 (bytesToNatLE raw))
      else .error .valueConversion
    | .f64 =>
      if raw.length = 8 then .ok (.f64 (bytesToNatLE raw))
      else .error .valueConversion
    | .string => .ok (.stringV raw)
    | .u8Array => .ok (.u8Array raw)
    | .raw => .ok (.raw raw)
    | .i24 | .u24 | .timeOfDay => .error (.unsuportedDataType dt)

/-- `value_to_bytes` of `src/util.rs`: encode a value to its wire bytes.
Signed branches produce the two's-complement little-endian bytes
(`to_ne_bytes`). -/
def value_to_bytes (v : Value) : Except Error (List Nat) :=
  match v with
  | .bool b => .ok (if b then [1] else [0])
  | .byte x => .ok [x]
  | .i8 x => .ok (natToBytesLE 1 (x % 256).toNat)
  | .i16 x => .ok (natToBytesLE 2 (x % 65536).toNat)
  | .i32 x => .ok (natToBytesLE 4 (x % 4294967296).toNat)
  | .i64 x => .ok (natToBytesLE 8 (x % 18446744073709551616).toNat)
  | .u8 x => .ok (natToBytesLE 1 x)
  | .u16 x => .ok (natToBytesLE 2 x)
  | .u32 x => .ok (natToBytesLE 4 x)
  | .u64 x => .ok (natToBytesLE 8 x)
  | .f32 bits => .ok (natToBytesLE 4 bits)
  | .f64 bits => .ok (natToBytesLE 8 bits)
  | .raw bs => .ok bs
  | .stringV _ => .error (.unsuportedValue v)
  | .u8Array _ => .error (.unsuportedValue v)

/-- Representability of a `Value` inside the Rust machine types. -/
def Value.wf : Value → Bool
  | .bool _ => true
  | .byte x => x < 256
  | .i8 x => -128 ≤ x && x < 128
  | .i16 x => -32768 ≤ x && x < 32768
  | .i32 x => -2147483648 ≤ x && x < 2147483648
  | .i64 x => -9223372036854775808 ≤ x && x < 9223372036854775808
  | .u8 x => x < 256
  | .u16 x => x < 65536
  | .u32 x => x < 4294967296
  | .u64 x => x < 18446744073709551616
  | .f32 bits => bits < 4294967296
  | .f64 bits => bits < 18446744073709551616
  | .stringV bs => bs.all (· < 256)
  | .u8Array bs => bs.all (· < 256)
  | .raw bs => bs.all (· < 256)

/-- The CoE data type whose decoder reproduces a given value variant;
`none` for the variants the encoder rejects (`String`, `U8Array`). -/
def Value.dataType? : Value → Option DataType
  | .bool _ => some .bool
  | .byte _ => some .byte
  | .i8 _ => some .i8
  | .i16 _ => some .i16
  | .i32 _ => some .i32
  | .i64 _ => some .i64
  | .u8 _ => some .u8
  | .u16 _ => some .u16
  | .u32 _ => some .u32
  | .u64 _ => some .u64
  | .f32 _ => some .f32
  | .f64 _ => some .f64
  | .stringV _ => none
  | .u8Array _ => none
  | .raw _ => some .raw

/-- One mapped PDO entry (`ec::PdoEntryInfo` as built by
`Master::pdo_entry_info`): the referenced dictionary entry and its
bit-length. -/
structure PdoEntryInfo where
  sdo : EntryIdx
  bitLen : Nat
  deriving DecidableEq, Repr

/-- One PDO: its index and its ordered entries (`ec::PdoInfo`). -/
structure PdoInfo where
  idx : Nat
  entries : List PdoEntryInfo
  deriving DecidableEq, Repr

/-- One sync manager's PDO assignment (`ec::PdoAssignment`). -/
structure PdoAssignment where
  sm : Nat
  smType : SmType
  pdos : List PdoInfo
  deriving DecidableEq, Repr

/-- One dictionary entry's metadata (`ec::EntryInfo`); the `access`, `name`
and `pos` fields of the source are omitted — no claim concerns them. -/
structure EntryInfo where
  entryIdx : EntryIdx
  dataType : Option DataType
  bitLen : Nat
  deriving DecidableEq, Repr

/-- One top-level object's description (`ec::ObjectInfo`). -/
structure ObjectInfo where
  pos : Nat
  idx : Nat
  maxSubIdx : Nat
  objectCode : Option Nat
  deriving DecidableEq, Repr

/-- A slave's object dictionary (`ec::ObjectDict`).  The source keys
`entries` by a `BTreeMap`; since every `EntryIdx` is inserted once, keyed
lookup coincides with first-match search over this association list. -/
structure ObjectDict where
  objects : List ObjectInfo
  entries : List (EntryIdx × EntryInfo)
  deriving DecidableEq, Repr

/-- `ObjectDict::add_entry`. -/
def ObjectDict.add_entry (d : ObjectDict) (e : EntryInfo) : ObjectDict :=
  { d with entries := d.entries ++ [(e.entryIdx, e)] }

/-- `ObjectDict::add_obj`. -/
def ObjectDict.add_obj (d : ObjectDict) (o : ObjectInfo) : ObjectDict :=
  { d with objects := d.objects ++ [o] }

/-- Keyed lookup in the dictionary (`dict.entries.get(&k)`). -/
def ObjectDict.getEntry (d : ObjectDict) (k : EntryIdx) : Option EntryInfo :=
  (d.entries.find? (fun p => p.1 == k)).map (·.2)

/-- Sum of the bit-lengths of a list of PDO entries. -/
def sumBits (es : List PdoEntryInfo) : Nat :=
  (es.map PdoEntryInfo.bitLen).sum

/-- Inner loop of `pdo_offsets` (src/lib.rs): offsets of one PDO's entries
starting from the running bit counter; returns the updated counter. -/
def pdo_offsets_entries (bitOffset : Nat) :
    List PdoEntryInfo → List (EntryIdx × Offset) × Nat
  | [] => ([], bitOffset)
  | e :: es =>
    let off : Offset := ⟨bitOffset / 8, bitOffset % 8⟩
    let (rest, b') := pdo_offsets_entries (bitOffset + e.bitLen) es
    ((e.sdo, off) :: rest, b')

/-- Outer loop of `pdo_offsets`: the running bit counter persists across
the PDOs of the one assignment passed in. -/
def pdo_offsets_from (bitOffset : Nat) : List PdoInfo → List (EntryIdx × Offset)
  | [] => []
  | p :: ps =>
    let (l, b') := pdo_offsets_entries bitOffset p.entries
    l ++ pdo_offsets_from b' ps

/-- `pdo_offsets` of src/lib.rs: the (byte, bit) offset of every entry of
one sync manager's PDO list, from a bit counter that starts at 0. -/
def pdo_offsets (pdos : List PdoInfo) : List (EntryIdx × Offset) :=
  pdo_offsets_from 0 pdos

/-- Spec-side layout (§4.2 step 5 wording): each entry's offset is the
running sum of the bit-lengths of all entries before it, starting from
`bit0`. -/
def runningSumOffsets (bit0 : Nat) : List PdoEntryInfo → List (EntryIdx × Offset)
  | [] => []
  | e :: es => (e.sdo, ⟨bit0 / 8, bit0 % 8⟩) :: runningSumOffsets (bit0 + e.bitLen) es

/-- Inner loop of `process_data` (src/lib.rs): decode the entries of one
PDO from `data`, advancing the running bit counter; a failed decode is
logged and skipped, an out-of-range slice `&data[byte..byte + len]` is a
Rust panic. -/
def process_data_entry_list (data : List Nat) (dict : Option ObjectDict) :
    Nat → List PdoEntryInfo → Outcome (List (EntryIdx × Value))
  | _, [] => .ok []
  | bitOffset, e :: es =>
    let len := byte_cnt e.bitLen
    let byte := bitOffset / 8
    if byte + len ≤ data.length then
      let raw := (data.drop byte).take len
      let dt :=
        match (dict.bind (fun d => d.getEntry e.sdo)).bind EntryInfo.dataType with
        | some dt => dt
        | none => DataType.raw
      match value_from_slice dt raw (bitOffset % 8) with
      | .ok v =>
        match process_data_entry_list data dict (bitOffset + e.bitLen) es with
        | .ok vs => .ok ((e.sdo, v) :: vs)
        | o => o
      | .error _ => process_data_entry_list data dict (bitOffset + e.bitLen) es
    else .panicked

/-- Outer loop of `process_data`: the bit counter persists across the PDOs
of the one assignment passed in (it advances by `bit_len` for every entry,
also for skipped ones). -/
def process_data_go (data : List Nat) (dict : Option ObjectDict) :
    Nat → List PdoInfo → Outcome (List (EntryIdx × Value))
  | _, [] => .ok []
  | b, p :: ps =>
    match process_data_entry_list data dict b p.entries with
    | .ok vs =>
      match process_data_go data dict (b + sumBits p.entries) ps with
      | .ok vs' => .ok (vs ++ vs')
      | o => o
    | o => o

/-- `process_data` of src/lib.rs: decode all entries of one sync manager's
PDO list from a process-data image, with the bit counter starting at 0. -/
def process_data (data : List Nat) (pdos : List PdoInfo)
    (dict : Option ObjectDict) : Outcome (List (EntryIdx × Value)) :=
  process_data_go data dict 0 pdos

/-- Modelled from the spec: `ec::PdoMapping::get` lives in the external
`ethercat-types` crate (not in this repository); per §3 it is positional
lookup of a slave's assignment list by `SlavePosition`. -/
def pdoMappingGet (m : List (List PdoAssignment)) (slave : Nat) :
    Option (List PdoAssignment) :=
  m[slave]?

/-- Modelled from the spec: `ec::PdoMapping::outputs` (external
`ethercat-types` crate) — the first Outputs-typed assignment of the
slave's mapping, as exercised by the unit tests in src/lib.rs. -/
def pdoMappingOutputs (m : List (List PdoAssignment)) (slave : Nat) :
    Option PdoAssignment :=
  (pdoMappingGet m slave).bind (fun l => l.find? (fun a => a.smType == .outputs))

/-- Per-slave body of `Master::pdo_values` (src/lib.rs): look the slave up
in the cached mapping (`none` = "could not find PDO meta data", slave
skipped), then decode each assignment against the outputs or inputs image,
each `process_data` call restarting the bit counter. -/
def pdo_values_assignments (outputs inputs : List Nat)
    (dict : Option ObjectDict) :
    List PdoAssignment → Outcome (List (EntryIdx × Value))
  | [] => .ok []
  | a :: rest =>
    let cur :=
      match a.smType with
      | .outputs => process_data outputs a.pdos dict
      | .inputs => process_data inputs a.pdos dict
      | _ => .ok []
    match cur with
    | .ok vs =>
      match pdo_values_assignments outputs inputs dict rest with
      | .ok vs' => .ok (vs ++ vs')
      | o => o
    | o => o

/-- `Master::pdo_values` restricted to slave `i` (the iterator body). -/
def pdo_values_slave (mapping : List (List PdoAssignment))
    (sdos : List ObjectDict) (outputs inputs : List Nat) (i : Nat) :
    Option (Outcome (List (EntryIdx × Value))) :=
  match pdoMappingGet mapping i with
  | none => none
  | some asgns => some (pdo_values_assignments outputs inputs sdos[i]? asgns)

/-- The (byte, bit) positions at which the cyclic read path decodes the
entries of direction `t`: `pdo_values` runs `process_data` once per
assignment of that type, in order, and `process_data` reads entry after
entry at the positions `pdo_offsets` computes (both restart the bit counter
at 0 for each assignment). -/
def directionOffsets (asgns : List PdoAssignment) (t : SmType) :
    List (EntryIdx × Offset) :=
  ((asgns.filter (fun a => a.smType == t)).map (fun a => pdo_offsets a.pdos)).flatten

/-- The flattened entries of direction `t`, in processing order. -/
def directionEntries (asgns : List PdoAssignment) (t : SmType) :
    List PdoEntryInfo :=
  ((asgns.filter (fun a => a.smType == t)).map
    (fun a => (a.pdos.map PdoInfo.entries).flatten)).flatten
/-- Byte-by-byte copy loop of `Master::set_pdo_value`'s non-`Bool` branch
(`s.outputs_mut()[offset.byte + i] = b` for each encoded byte, in order);
an out-of-range index is a Rust panic. -/
def writeBytes : List Nat → Nat → List Nat → Outcome (List Nat)
  | outs, _, [] => .ok outs
  | outs, start, b :: bs =>
    if start < outs.length then writeBytes (outs.set start b) (start + 1) bs
    else .panicked

/-- `Master::set_pdo_value` (src/lib.rs): locate the entry among the first
Outputs-typed assignment's offsets, re-find the entry, resolve its data
type from the cached dictionary, then patch the slave's output image:
read-modify-write of a single bit for `Bool`, else a direct indexed copy
of all encoded bytes.  `!mask` on a `u8` is modelled as `255 ^^^ mask`. -/
def set_pdo_value (mapping : List (List PdoAssignment))
    (sdos : List ObjectDict) (slaves : List (List Nat))
    (slave : Nat) (idx : EntryIdx) (v : Value) : Outcome (List Nat) :=
  match pdoMappingOutputs mapping slave with
  | none => .err (.noOutputPdos slave)
  | some asgn =>
    let pdos := asgn.pdos
    match (pdo_offsets pdos).find? (fun p => p.1 == idx) with
    | none => .err (.pdoEntryNotFound idx)
    | some po =>
      let offset := po.2
      match ((pdos.find? (fun info => info.idx == idx.idx)).map
          PdoInfo.entries).bind (fun es => es.find? (fun e => e.sdo == idx)) with
      | none => .err (.pdoEntryNotFound idx)
      | some e =>
        match (sdos[slave]?).bind
            (fun d => (d.entries.find? (fun p => p.1 == e.sdo)).bind
              (fun p => p.2.dataType)) with
        | none => .err .unexpectedDataType
        | some dataType =>
          match slaves[slave]? with
          | none => .err (.slaveNotFound slave)
          | some outs =>
            match value_to_bytes v with
            | .error er => .err er
            | .ok bytes =>
              if dataType = DataType.bool then
                match bytes with
                | [] => .panicked
                | b0 :: _ =>
                  let mask := 1 <<< offset.bit
                  if b0 = 1 then
                    if h : offset.byte < outs.length then
                      .ok (outs.set offset.byte (outs[offset.byte] ||| mask))
                    else .panicked
                  else
                    if h : offset.byte < outs.length then
                      .ok (outs.set offset.byte
                        (outs[offset.byte] &&& (255 ^^^ mask)))
                    else .panicked
              else writeBytes outs offset.byte bytes
/-- Pad/truncate the engine-returned bytes to the caller's target buffer
size (the Rust callers pass fixed arrays `[0; N]` that `sdo_read` fills). -/
def fill (n : Nat) (bs : List Nat) : List Nat :=
  (bs ++ List.replicate n 0).take n

/-- Oracle view of the external SOEM engine's mailbox/SDO traffic and
slave table, as consumed by the PDO-assignment resolver:
`sdoRead slave idx = none` models a non-positive working counter,
`smTypeTbl slave` models `ctx.slaves().get(slave).map(|s| s.sm_type())`. -/
structure Bus where
  slaveCount : Nat
  sdoRead : Nat → EntryIdx → Option (List Nat)
  smTypeTbl : Nat → Option (List Nat)

/-- `Master::read_sdo`: delegate to the engine; a failed read becomes the
typed `Error::ReadSdo(slave, idx)`. -/
def read_sdo (bus : Bus) (slave : Nat) (idx : EntryIdx) (n : Nat) :
    Except Error (List Nat) :=
  match bus.sdoRead slave idx with
  | none => .error (.readSdo slave idx)
  | some bs => .ok (fill n bs)

/-- `Master::sm_comm_type_sdo`: one byte read from SDO `0x1C00.sub`. -/
def sm_comm_type_sdo (bus : Bus) (slave : Nat) (sub : Nat) :
    Except Error Nat :=
  match read_sdo bus slave ⟨0x1C00, sub⟩ 1 with
  | .error e => .error e
  | .ok val => .ok (val.headD 0)

/-- Fail-fast mapping over a list, mirroring a Rust `for` loop whose body
ends in `?` and pushes one element per iteration. -/
def mapE {α β : Type} (f : α → Except Error β) :
    List α → Except Error (List β)
  | [] => .ok []
  | x :: xs =>
    match f x with
    | .error e => .error e
    | .ok y =>
      match mapE f xs with
      | .error e => .error e
      | .ok ys => .ok (y :: ys)

/-- Fail-fast mapping that may also skip an iteration (`continue`). -/
def filterMapE {α β : Type} (f : α → Except Error (Option β)) :
    List α → Except Error (List β)
  | [] => .ok []
  | x :: xs =>
    match f x with
    | .error e => .error e
    | .ok none => filterMapE f xs
    | .ok (some y) =>
      match filterMapE f xs with
      | .error e => .error e
      | .ok ys => .ok (y :: ys)

/-- `Master::sm_types` (src/lib.rs): for `sm in 2..=sm_cnt` look the SM
type byte up in the slave's live SM-type table, decode it (a failure of
either step is the typed error the source's `?` produces), and skip the
known-buggy `SM2 = MbxRd` report. -/
def sm_types (bus : Bus) (slave : Nat) (smCnt : Nat) :
    Except Error (List (Nat × SmType)) :=
  filterMapE (fun sm =>
    match (bus.smTypeTbl slave).bind (fun tbl => tbl[sm]?) with
    | none => .error .invalidSmType
    | some tid =>
      match smTypeFromU8 tid with
      | none => .error .invalidSmType
      | some t =>
        if sm = 2 ∧ t = .mbxRd then .ok none
        else .ok (some (sm, t)))
    (List.range' 2 (smCnt - 1))

/-- `Master::pdo_entry_info` (src/lib.rs): read the 32-bit packed PDO
entry descriptor and split it exactly as the source does
(`data & 0xFF`, `(data >> 16) as u16`, `(data >> 8) & 0xFF`). -/
def pdo_entry_info (bus : Bus) (slave : Nat) (pdoDataSdoIdx : EntryIdx) :
    Except Error PdoEntryInfo :=
  match read_sdo bus slave pdoDataSdoIdx 4 with
  | .error e => .error e
  | .ok val =>
    let data := bytesToNatLE val
    let bitLen := data &&& 0xFF
    let objIdx := (data >>> 16) % 65536
    let objSubIdx := (data >>> 8) &&& 0xFF
    .ok ⟨⟨objIdx, objSubIdx⟩, bitLen⟩

/-- `Master::si_pdo_assign` (src/lib.rs): read the PDO count of sync
manager `sm` from SDO `0x1C10 + sm`, then every assigned PDO index, its
entry count, and each packed entry descriptor. -/
def si_pdo_assign (bus : Bus) (slave sm : Nat) (smType : SmType) :
    Except Error PdoAssignment :=
  let idx := 0x1C10 + sm
  match read_sdo bus slave ⟨idx, 0⟩ 1 with
  | .error e => .error e
  | .ok val =>
    let pdoCnt := val.headD 0
    match mapE (fun pdoSub =>
        match read_sdo bus slave ⟨idx, pdoSub⟩ 2 with
        | .error e => .error e
        | .ok val2 =>
          let pdoIdx := bytesToNatLE val2
          match read_sdo bus slave ⟨pdoIdx, 0⟩ 1 with
          | .error e => .error e
          | .ok val3 =>
            let entryCnt := val3.headD 0
            match mapE
                (fun entrySub => pdo_entry_info bus slave ⟨pdoIdx, entrySub⟩)
                (List.range' 1 entryCnt) with
            | .error e => .error e
            | .ok entries => .ok (⟨pdoIdx, entries⟩ : PdoInfo))
        (List.range' 1 pdoCnt) with
    | .error e => .error e
    | .ok pdos => .ok ⟨sm, smType, pdos⟩

/-- Per-slave body of `Master::coe_pdo_info` (src/lib.rs): read the SM
communication-type count, skip the slave when it is ≤ 2 (`continue`, no
placeholder), clamp the defined-SM count to 8, resolve the SM types, then
process the Outputs-typed sync managers first and the Inputs-typed ones
second, each group in the (ascending) order `sm_types` produced. -/
def slave_mapping (bus : Bus) (slave : Nat) :
    Except Error (Option (List PdoAssignment)) :=
  match sm_comm_type_sdo bus slave 0 with
  | .error e => .error e
  | .ok objCnt =>
    if objCnt ≤ 2 then .ok none
    else
      let smCnt := if objCnt - 1 > 8 then 8 else objCnt - 1
      match sm_types bus slave smCnt with
      | .error e => .error e
      | .ok smTypes =>
        match mapE (fun p => si_pdo_assign bus slave p.1 p.2)
            (smTypes.filter (fun p => p.2 == SmType.outputs)) with
        | .error e => .error e
        | .ok outAsgns =>
          match mapE (fun p => si_pdo_assign bus slave p.1 p.2)
              (smTypes.filter (fun p => p.2 == SmType.inputs)) with
          | .error e => .error e
          | .ok inAsgns => .ok (some (outAsgns ++ inAsgns))

/-- `Master::coe_pdo_info` (src/lib.rs): walk all slaves in ascending
position order; an error for any slave aborts the whole resolution
(`?` inside the loop), a skipped slave contributes no element. -/
def coe_pdo_info (bus : Bus) : Except Error (List (List PdoAssignment)) :=
  filterMapE (slave_mapping bus) (List.range bus.slaveCount)

/-- Whether a per-slave step of `coe_pdo_info` contributes an element
(succeeds and is not skipped). -/
def isOkSome {β : Type} : Except Error (Option β) → Bool
  | .ok (some _) => true
  | _ => false

/-- Modelled from the spec: `ec::DataType::from_u16` lives in the external
`ethercat-types` crate (not in this repository); a representative table of
CoE type codes per §3/§4.1 — unknown codes yield `none` ("retained but not
decodable").  No claim depends on the exact numeric table. -/
def dataTypeFromU16 (x : Nat) : Option DataType :=
  match x with
  | 1 => some .bool
  | 2 => some .i8
  | 3 => some .i16
  | 4 => some .i32
  | 5 => some .u8
  | 6 => some .u16
  | 7 => some .u32
  | 8 => some .f32
  | 9 => some .string
  | 10 => some .u8Array
  | 17 => some .f64
  | 21 => some .i64
  | 27 => some .u64
  | 30 => some .byte
  | _ => none

/-- The per-slave object-description list the engine's
`read_od_list`/`read_od_description`/`read_oe` calls fill
(`ctx::OdList`/`ctx::OeList`), as oracle data: per-item success flags and
the array contents.  The `name` strings are omitted — no claim concerns
them. -/
structure OdListData where
  entries : Nat
  indexes : Nat → Nat
  objectCodes : Nat → Nat
  maxSubs : Nat → Nat
  descOk : Nat → Bool
  oeOk : Nat → Bool
  oeDataTypes : Nat → Nat → Nat
  oeBitLens : Nat → Nat → Nat

/-- Oracle view of the engine for object-dictionary discovery:
`odList slave = none` models a failed `read_od_list` call. -/
structure OdBus where
  slaveCount : Nat
  odList : Nat → Option OdListData

/-- The entry list of one object (`ctx::OeList`): per-subindex data-type
code and bit length. -/
structure OeList where
  dataTypes : Nat → Nat
  bitLengths : Nat → Nat

/-- `Master::read_od_desc` (src/lib.rs): a non-positive result becomes
`Error::ReadOdDesc(pos)` — the position is the only datum the error
carries. -/
def read_od_desc (odl : OdListData) (item : Nat) : Except Error ObjectInfo :=
  if odl.descOk item then
    .ok ⟨item, odl.indexes item, odl.maxSubs item, some (odl.objectCodes item)⟩
  else .error (.readOdDesc item)

/-- `Master::read_oe_list` (src/lib.rs): a non-positive result becomes
`Error::ReadOeList(pos)`. -/
def read_oe_list (odl : OdListData) (item : Nat) : Except Error OeList :=
  if odl.oeOk item then .ok ⟨odl.oeDataTypes item, odl.oeBitLens item⟩
  else .error (.readOeList item)

/-- Inner loop of `Master::read_od_list`: add one object's entries
(subindices `0..=max_sub_idx`) and then the object itself to the
dictionary. -/
def add_object_entries (dict : ObjectDict) (info : ObjectInfo)
    (oe : OeList) : ObjectDict :=
  ((List.range (info.maxSubIdx + 1)).foldl (fun d j =>
    d.add_entry ⟨⟨info.idx, j⟩, dataTypeFromU16 (oe.dataTypes j),
      oe.bitLengths j⟩) dict).add_obj info

/-- Item loop of `Master::read_od_list`: for every listed object read its
description and entry list (each failure aborting with its typed error)
and extend the dictionary. -/
def od_items_loop (odl : OdListData) (dict : ObjectDict) :
    List Nat → Except Error ObjectDict
  | [] => .ok dict
  | i :: rest =>
    match read_od_desc odl i with
    | .error e => .error e
    | .ok info =>
      match read_oe_list odl i with
      | .error e => .error e
      | .ok oe => od_items_loop odl (add_object_entries dict info oe) rest

/-- `Master::read_od_list` (src/lib.rs): request the object-description
list for the slave, then walk all its items. -/
def read_od_list (bus : OdBus) (slave : Nat) : Except Error ObjectDict :=
  match bus.odList slave with
  | none => .error (.readOdList slave)
  | some odl => od_items_loop odl ⟨[], []⟩ (List.range odl.entries)

/-- `Master::scan_slave_objects` (src/lib.rs): collect the dictionaries of
all slaves; the `collect::<Result<_>>` aborts at the first failure and
keeps nothing. -/
def scan_slave_objects (bus : OdBus) : Except Error (List ObjectDict) :=
  mapE (read_od_list bus) (List.range bus.slaveCount)
theorem length_natToBytesLE (w n : Nat) : (natToBytesLE w n).length = w := by
  induction w generalizing n with
  | zero => rfl
  | succ w ih => simp [natToBytesLE, ih]

theorem bytesToNatLE_natToBytesLE (w n : Nat) :
    bytesToNatLE (natToBytesLE w n) = n % 2 ^ (8 * w) := by
  induction w generalizing n with
  | zero => simp [natToBytesLE, bytesToNatLE, Nat.mod_one]
  | succ w ih =>
    have h2 : (2 : Nat) ^ (8 * (w + 1)) = 256 * 2 ^ (8 * w) := by
      rw [Nat.mul_add, Nat.pow_add]; ring
    simp only [natToBytesLE, bytesToNatLE, ih, h2]
    rw [Nat.mod_mul]

theorem bytesToNatLE_lt (bs : List Nat) (h : ∀ b ∈ bs, b < 256) :
    bytesToNatLE bs < 2 ^ (8 * bs.length) := by
  induction bs with
  | nil => simp [bytesToNatLE]
  | cons b bs ih =>
    have hb : b < 256 := h b (by simp)
    have hbs := ih (fun x hx => h x (by simp [hx]))
    have h2 : (2 : Nat) ^ (8 * (b :: bs).length) = 256 * 2 ^ (8 * bs.length) := by
      simp only [List.length_cons, Nat.mul_add, Nat.pow_add]; ring
    simp only [bytesToNatLE, h2]
    omega


/-- C2: the claim as stated fails for `Raw` with an empty payload:
`value_to_bytes` emits the empty byte string, which `value_from_slice`
rejects with `ValueFromEmptyBuf` instead of returning the value. -/
theorem C2_raw_empty_counterexample :
    (value_to_bytes (.raw [])).bind (fun bs => value_from_slice .raw bs 0)
      = .error .valueFromEmptyBuf
    ∧ Value.dataType? (.raw []) = some .raw
    ∧ (Value.raw []).wf = true := ⟨rfl, rfl, rfl⟩

/-- C2 (amended): for every representable value of a decodable data type
(`Bool`, `Byte`, `I8`–`I64`, `U8`–`U64`, `F32`, `F64`, `Raw` with non-empty
payload), decoding the bytes produced by encoding it — with the matching
data type and bit offset 0 — returns the value itself; `String` (and
`U8Array`) values have no encoder and are exempt. -/
theorem C2_roundtrip (v : Value) (dt : DataType)
    (hdt : v.dataType? = some dt) (hwf : v.wf = true) (hne : v ≠ .raw []) :
    (value_to_bytes v).bind (fun bs => value_from_slice dt bs 0) = .ok v := by
  cases v with
  | bool b =>
    simp only [Value.dataType?, Option.some.injEq] at hdt; subst hdt
    cases b <;> rfl
  | byte x =>
    simp only [Value.dataType?, Option.some.injEq] at hdt; subst hdt
    rfl
  | i8 x =>
    simp only [Value.dataType?, Option.some.injEq] at hdt; subst hdt
    simp only [Value.wf, Bool.and_eq_true, decide_eq_true_eq] at hwf
    simp only [value_to_bytes, Except.bind]
    rw [show natToBytesLE 1 (x % 256).toNat = [(x % 256).toNat % 256] from rfl]
    simp [value_from_slice]
    split <;> omega
  | i16 x =>
    simp only [Value.dataType?, Option.some.injEq] at hdt; subst hdt
    simp only [Value.wf, Bool.and_eq_true, decide_eq_true_eq] at hwf
    simp only [value_to_bytes, Except.bind]
    rw [show natToBytesLE 2 (x % 65536).toNat =
      [(x % 65536).toNat % 256, (x % 65536).toNat / 256 % 256] from rfl]
    simp [value_from_slice, bytesToNatLE]
    split <;> omega
  | i32 x =>
    simp only [Value.dataType?, Option.some.injEq] at hdt; subst hdt
    simp only [Value.wf, Bool.and_eq_true, decide_eq_true_eq] at hwf
    simp only [value_to_bytes, Except.bind]
    rw [show natToBytesLE 4 (x % 4294967296).toNat =
      [(x % 4294967296).toNat % 256,
       (x % 4294967296).toNat / 256 % 256,
       (x % 4294967296).toNat / 256 / 256 % 256,
       (x % 4294967296).toNat / 256 / 256 / 256 % 256] from rfl]
    simp [value_from_slice, bytesToNatLE]
    split <;> omega
  | i64 x =>
    simp only [Value.dataType?, Option.some.injEq] at hdt; subst hdt
    simp only [Value.wf, Bool.and_eq_true, decide_eq_true_eq] at hwf
    simp only [value_to_bytes, Except.bind]
    rw [show natToBytesLE 8 (x % 18446744073709551616).toNat =
      [(x % 18446744073709551616).toNat % 256,
       (x % 18446744073709551616).toNat / 256 % 256,
       (x % 18446744073709551616).toNat / 256 / 256 % 256,
       (x % 18446744073709551616).toNat / 256 / 256 / 256 % 256,
       (x % 18446744073709551616).toNat / 256 / 256 / 256 / 256 % 256,
       (x % 18446744073709551616).toNat / 256 / 256 / 256 / 256 / 256 % 256,
       (x % 18446744073709551616).toNat / 256 / 256 / 256 / 256 / 256 / 256 % 256,
       (x % 18446744073709551616).toNat / 256 / 256 / 256 / 256 / 256 / 256 / 256 % 256]
      from rfl]
    simp [value_from_slice, bytesToNatLE]
    split <;> omega
  | u8 x =>
    simp only [Value.dataType?, Option.some.injEq] at hdt; subst hdt
    simp only [Value.wf, decide_eq_true_eq] at hwf
    simp only [value_to_bytes, Except.bind]
    rw [show natToBytesLE 1 x = [x % 256] from rfl]
    simp [value_from_slice]
    omega
  | u16 x =>
    simp only [Value.dataType?, Option.some.injEq] at hdt; subst hdt
    simp only [Value.wf, decide_eq_true_eq] at hwf
    simp only [value_to_bytes, Except.bind]
    rw [show natToBytesLE 2 x = [x % 256, x / 256 % 256] from rfl]
    simp [value_from_slice, bytesToNatLE]
    omega
  | u32 x =>
    simp only [Value.dataType?, Option.some.injEq] at hdt; subst hdt
    simp only [Value.wf, decide_eq_true_eq] at hwf
    simp only [value_to_bytes, Except.bind]
    rw [show natToBytesLE 4 x =
      [x % 256, x / 256 % 256, x / 256 / 256 % 256, x / 256 / 256 / 256 % 256]
      from rfl]
    simp [value_from_slice, bytesToNatLE]
    omega
  | u64 x =>
    simp only [Value.dataType?, Option.some.injEq] at hdt; subst hdt
    simp only [Value.wf, decide_eq_true_eq] at hwf
    simp only [value_to_bytes, Except.bind]
    rw [show natToBytesLE 8 x =
      [x % 256, x / 256 % 256, x / 256 / 256 % 256, x / 256 / 256 / 256 % 256,
       x / 256 / 256 / 256 / 256 % 256, x / 256 / 256 / 256 / 256 / 256 % 256,
       x / 256 / 256 / 256 / 256 / 256 / 256 % 256,
       x / 256 / 256 / 256 / 256 / 256 / 256 / 256 % 256] from rfl]
    simp [value_from_slice, bytesToNatLE]
    omega
  | f32 bits =>
    simp only [Value.dataType?, Option.some.injEq] at hdt; subst hdt
    simp only [Value.wf, decide_eq_true_eq] at hwf
    simp only [value_to_bytes, Except.bind]
    rw [show natToBytesLE 4 bits =
      [bits % 256, bits / 256 % 256, bits / 256 / 256 % 256,
       bits / 256 / 256 / 256 % 256] from rfl]
    simp [value_from_slice, bytesToNatLE]
    omega
  | f64 bits =>
    simp only [Value.dataType?, Option.some.injEq] at hdt; subst hdt
    simp only [Value.wf, decide_eq_true_eq] at hwf
    simp only [value_to_bytes, Except.bind]
    rw [show natToBytesLE 8 bits =
      [bits % 256, bits / 256 % 256, bits / 256 / 256 % 256,
       bits / 256 / 256 / 256 % 256, bits / 256 / 256 / 256 / 256 % 256,
       bits / 256 / 256 / 256 / 256 / 256 % 256,
       bits / 256 / 256 / 256 / 256 / 256 / 256 % 256,
       bits / 256 / 256 / 256 / 256 / 256 / 256 / 256 % 256] from rfl]
    simp [value_from_slice, bytesToNatLE]
    omega
  | stringV bs => simp [Value.dataType?] at hdt
  | u8Array bs => simp [Value.dataType?] at hdt
  | raw bs =>
    simp only [Value.dataType?, Option.some.injEq] at hdt; subst hdt
    cases bs with
    | nil => exact absurd rfl hne
    | cons b bs => rfl

/-- C2 witness: the round-trip at the concrete value `I16(-5)`. -/
theorem C2_roundtrip_witness :
    Value.dataType? (.i16 (-5)) = some .i16 ∧ (Value.i16 (-5)).wf = true
    ∧ Value.i16 (-5) ≠ .raw []
    ∧ (value_to_bytes (.i16 (-5))).bind (fun bs => value_from_slice .i16 bs 0)
        = .ok (.i16 (-5)) :=
  ⟨rfl, by decide, by decide, C2_roundtrip _ _ rfl (by decide) (by decide)⟩

theorem pdo_offsets_entries_eq (b : Nat) (es : List PdoEntryInfo) :
    pdo_offsets_entries b es = (runningSumOffsets b es, b + sumBits es) := by
  induction es generalizing b with
  | nil => simp [pdo_offsets_entries, runningSumOffsets, sumBits]
  | cons e es ih =>
    simp only [pdo_offsets_entries, runningSumOffsets, ih, sumBits,
      List.map_cons, List.sum_cons]
    rw [← Nat.add_assoc]

theorem runningSumOffsets_append (b : Nat) (es es' : List PdoEntryInfo) :
    runningSumOffsets b (es ++ es')
      = runningSumOffsets b es ++ runningSumOffsets (b + sumBits es) es' := by
  induction es generalizing b with
  | nil => simp [runningSumOffsets, sumBits]
  | cons e es ih =>
    simp only [List.cons_append, List.append_eq, runningSumOffsets, ih, sumBits,
      List.map_cons, List.sum_cons, List.cons.injEq, true_and]
    rw [← Nat.add_assoc]

theorem pdo_offsets_from_eq (b : Nat) (ps : List PdoInfo) :
    pdo_offsets_from b ps
      = runningSumOffsets b ((ps.map PdoInfo.entries).flatten) := by
  induction ps generalizing b with
  | nil => simp [pdo_offsets_from, runningSumOffsets]
  | cons p ps ih =>
    simp only [pdo_offsets_from, pdo_offsets_entries_eq, List.map_cons,
      List.flatten_cons, runningSumOffsets_append, ih]

/-- C1: within one sync-manager assignment, each entry's offset equals the
running sum of the bit-lengths of the entries processed before it (the
counter starting at 0 and accumulating across that assignment's PDOs) —
but the cyclic read path restarts the counter at 0 for every assignment,
so per direction the offsets are the concatenation of per-sync-manager
running-sum layouts, not one accumulated layout. -/
theorem C1_offsets_reset_per_sync_manager
    (asgns : List PdoAssignment) (t : SmType) :
    directionOffsets asgns t
      = ((asgns.filter (fun a => a.smType == t)).map
          (fun a => runningSumOffsets 0 ((a.pdos.map PdoInfo.entries).flatten))).flatten := by
  unfold directionOffsets
  congr 1
  apply List.map_congr_left
  intro a _
  exact pdo_offsets_from_eq 0 a.pdos

/-- C7: `set_pdo_value` returns the matching typed error — and performs no
write, no panic and no default-value write — whenever the slave has no
Outputs-typed assignment, or the entry index is not among the
outputs-mapped entries (which covers Inputs-mapped entries, since only the
Outputs assignment is searched), or the referenced dictionary entry has no
resolvable data type. -/
theorem C7_write_error_paths (mapping : List (List PdoAssignment))
    (sdos : List ObjectDict) (slaves : List (List Nat))
    (slave : Nat) (idx : EntryIdx) (v : Value) :
    (pdoMappingOutputs mapping slave = none →
      set_pdo_value mapping sdos slaves slave idx v
        = .err (.noOutputPdos slave))
    ∧ (∀ asgn, pdoMappingOutputs mapping slave = some asgn →
        (pdo_offsets asgn.pdos).find? (fun p => p.1 == idx) = none →
        set_pdo_value mapping sdos slaves slave idx v
          = .err (.pdoEntryNotFound idx))
    ∧ (∀ asgn po e, pdoMappingOutputs mapping slave = some asgn →
        (pdo_offsets asgn.pdos).find? (fun p => p.1 == idx) = some po →
        ((asgn.pdos.find? (fun info => info.idx == idx.idx)).map
            PdoInfo.entries).bind
          (fun es => es.find? (fun x => x.sdo == idx)) = some e →
        (sdos[slave]?).bind
            (fun d => (d.entries.find? (fun p => p.1 == e.sdo)).bind
              (fun p => p.2.dataType)) = none →
        set_pdo_value mapping sdos slaves slave idx v
          = .err .unexpectedDataType) := by
  refine ⟨fun h => ?_, fun asgn h1 h2 => ?_, fun asgn po e h1 h2 h3 h4 => ?_⟩
  · simp [set_pdo_value, h]
  · simp [set_pdo_value, h1, h2]
  · simp [set_pdo_value, h1, h2, h3, h4]

/-- C7 witness: the three error paths at concrete inputs — an empty
mapping, an Outputs assignment without the requested entry, and a mapped
entry whose dictionary lookup yields no data type. -/
theorem C7_write_error_paths_witness :
    set_pdo_value [] [] [[0]] 0 ⟨0x7000, 1⟩ (.bool true)
      = .err (.noOutputPdos 0)
    ∧ set_pdo_value [[⟨2, .outputs, []⟩]] [] [[0]] 0 ⟨0x7000, 1⟩ (.bool true)
      = .err (.pdoEntryNotFound ⟨0x7000, 1⟩)
    ∧ set_pdo_value [[⟨2, .outputs, [⟨0x1600, [⟨⟨0x1600, 2⟩, 1⟩]⟩]⟩]] [] [[0]]
        0 ⟨0x1600, 2⟩ (.bool true) = .err .unexpectedDataType := by
  refine ⟨(C7_write_error_paths [] [] [[0]] 0 ⟨0x7000, 1⟩ (.bool true)).1 rfl,
    (C7_write_error_paths [[⟨2, .outputs, []⟩]] [] [[0]] 0 ⟨0x7000, 1⟩
      (.bool true)).2.1 ⟨2, .outputs, []⟩ rfl rfl,
    (C7_write_error_paths [[⟨2, .outputs, [⟨0x1600, [⟨⟨0x1600, 2⟩, 1⟩]⟩]⟩]] []
      [[0]] 0 ⟨0x1600, 2⟩ (.bool true)).2.2 ⟨2, .outputs,
        [⟨0x1600, [⟨⟨0x1600, 2⟩, 1⟩]⟩]⟩ ⟨⟨0x1600, 2⟩, ⟨0, 0⟩⟩
        ⟨⟨0x1600, 2⟩, 1⟩ rfl (by decide) (by decide) rfl⟩

theorem mem_runningSumOffsets_bit_lt (b : Nat) (es : List PdoEntryInfo)
    (p : EntryIdx × Offset) (hp : p ∈ runningSumOffsets b es) : p.2.bit < 8 := by
  induction es generalizing b with
  | nil => simp [runningSumOffsets] at hp
  | cons e es ih =>
    simp only [runningSumOffsets, List.mem_cons] at hp
    rcases hp with rfl | hp
    · simpa using Nat.mod_lt b (by norm_num)
    · exact ih _ hp

theorem find_pdo_offsets_bit_lt (pdos : List PdoInfo) (idx : EntryIdx)
    (po : EntryIdx × Offset)
    (h : (pdo_offsets pdos).find? (fun p => p.1 == idx) = some po) :
    po.2.bit < 8 := by
  have hmem := List.mem_of_find?_eq_some h
  rw [pdo_offsets, pdo_offsets_from_eq] at hmem
  exact mem_runningSumOffsets_bit_lt _ _ _ hmem

/-- C4: a `Bool` write through `set_pdo_value` at resolved offset
(byte, bit) is a read-modify-write of exactly that bit: the target bit
becomes the written value, every other bit of that byte and every other
byte of the slave's output image keep their previous value. -/
theorem C4_bool_write (mapping : List (List PdoAssignment))
    (sdos : List ObjectDict) (slaves : List (List Nat))
    (slave : Nat) (idx : EntryIdx) (b : Bool)
    (asgn : PdoAssignment) (po : EntryIdx × Offset) (e : PdoEntryInfo)
    (outs newOuts : List Nat)
    (hasg : pdoMappingOutputs mapping slave = some asgn)
    (hoff : (pdo_offsets asgn.pdos).find? (fun p => p.1 == idx) = some po)
    (he : ((asgn.pdos.find? (fun info => info.idx == idx.idx)).map
        PdoInfo.entries).bind
      (fun es => es.find? (fun x => x.sdo == idx)) = some e)
    (hdt : (sdos[slave]?).bind
        (fun d => (d.entries.find? (fun p => p.1 == e.sdo)).bind
          (fun p => p.2.dataType)) = some .bool)
    (houts : slaves[slave]? = some outs)
    (h256 : ∀ x ∈ outs, x < 256)
    (hok : set_pdo_value mapping sdos slaves slave idx (.bool b)
      = .ok newOuts) :
    newOuts.length = outs.length
    ∧ (∀ j, j ≠ po.2.byte → newOuts[j]? = outs[j]?)
    ∧ (∀ k, k ≠ po.2.bit →
        Nat.testBit (newOuts.getD po.2.byte 0) k
          = Nat.testBit (outs.getD po.2.byte 0) k)
    ∧ Nat.testBit (newOuts.getD po.2.byte 0) po.2.bit = b := by
  have hbit : po.2.bit < 8 := find_pdo_offsets_bit_lt _ _ _ hoff
  cases b with
  | true =>
    simp only [set_pdo_value, hasg, hoff, he, hdt, houts, value_to_bytes,
      if_true, Nat.one_shiftLeft] at hok
    -- (the true branch reduces fully in the previous step)
    split at hok
    case isTrue hlt =>
      injection hok with h
      subst h
      refine ⟨by simp, fun j hj => List.getElem?_set_ne (fun hc => hj hc.symm),
        fun k hk => ?_, ?_⟩
      · rw [List.getD_eq_getElem?_getD, List.getElem?_set_self hlt,
          List.getD_eq_getElem?_getD, List.getElem?_eq_getElem hlt]
        simp [Nat.testBit_lor, Nat.testBit_two_pow_of_ne (fun hc => hk hc.symm)]
      · rw [List.getD_eq_getElem?_getD, List.getElem?_set_self hlt]
        simp [Nat.testBit_lor, Nat.testBit_two_pow_self]
    case isFalse hlt => exact absurd hok (by simp)
  | false =>
    simp only [set_pdo_value, hasg, hoff, he, hdt, houts, value_to_bytes,
      if_true, Nat.one_shiftLeft] at hok
    norm_num at hok
    split at hok
    case isTrue hlt =>
      injection hok with h
      subst h
      have hlt256 : outs[po.2.byte] < 256 :=
        h256 _ (List.getElem_mem hlt)
      refine ⟨by simp, fun j hj => List.getElem?_set_ne (fun hc => hj hc.symm),
        fun k hk => ?_, ?_⟩
      · rw [List.getD_eq_getElem?_getD, List.getElem?_set_self hlt,
          List.getD_eq_getElem?_getD, List.getElem?_eq_getElem hlt]
        simp only [Option.getD_some, Nat.testBit_land, Nat.testBit_xor,
          show (255 : Nat) = 2 ^ 8 - 1 from rfl, Nat.testBit_two_pow_sub_one,
          Nat.testBit_two_pow_of_ne (fun hc => hk hc.symm), Bool.xor_false]
        by_cases hk8 : k < 8
        · simp [hk8]
        · have hge : 8 ≤ k := Nat.le_of_not_lt hk8
          have : outs[po.2.byte] < 2 ^ k :=
            lt_of_lt_of_le hlt256 (@Nat.pow_le_pow_right 2 (by norm_num) 8 k hge)
          simp [hk8, Nat.testBit_lt_two_pow this]
      · have hd : decide (po.2.bit < 8) = true := by simp [hbit]
        rw [List.getD_eq_getElem?_getD, List.getElem?_set_self hlt]
        simp only [Option.getD_some, Nat.testBit_land, Nat.testBit_xor,
          show (255 : Nat) = 2 ^ 8 - 1 from rfl, Nat.testBit_two_pow_sub_one,
          Nat.testBit_two_pow_self, hd, Bool.true_xor, Bool.not_true,
          Bool.and_false]
    case isFalse hlt => exact absurd hok (by simp)

/-- C4 witness: writing `Bool(true)` at resolved offset (byte 0, bit 0) of
the one-byte output image `[4]` makes bit 0 of that byte `true`. -/
theorem C4_bool_write_witness :
    Nat.testBit ((([4, 5] : List Nat).set 0 5).getD 0 0) 0 = true := by
  have h := C4_bool_write
    [[⟨2, .outputs, [⟨0x1600, [⟨⟨0x1600, 2⟩, 1⟩]⟩]⟩]]
    [⟨[], [(⟨0x1600, 2⟩, ⟨⟨0x1600, 2⟩, some .bool, 1⟩)]⟩]
    [[4, 5]] 0 ⟨0x1600, 2⟩ true
    ⟨2, .outputs, [⟨0x1600, [⟨⟨0x1600, 2⟩, 1⟩]⟩]⟩
    ⟨⟨0x1600, 2⟩, ⟨0, 0⟩⟩ ⟨⟨0x1600, 2⟩, 1⟩ [4, 5] ([4, 5].set 0 5)
    rfl (by decide) (by decide) rfl rfl (by decide) (by decide)
  exact h.2.2.2

theorem writeBytes_ok (bytes : List Nat) : ∀ (outs : List Nat) (start : Nat),
    start + bytes.length ≤ outs.length →
    ∃ res, writeBytes outs start bytes = .ok res
      ∧ res.length = outs.length
      ∧ (∀ j, j < start ∨ start + bytes.length ≤ j → res[j]? = outs[j]?)
      ∧ (∀ i, i < bytes.length → res[start + i]? = bytes[i]?) := by
  induction bytes with
  | nil =>
    intro outs start _
    exact ⟨outs, rfl, rfl, fun j _ => rfl, fun i hi => absurd hi (by simp)⟩
  | cons b bs ih =>
    intro outs start h
    have hstart : start < outs.length := by simp at h; omega
    have hrec : (start + 1) + bs.length ≤ (outs.set start b).length := by
      simp [List.length_set]; simp at h; omega
    obtain ⟨res, h1, h2, h3, h4⟩ := ih (outs.set start b) (start + 1) hrec
    refine ⟨res, ?_, ?_, ?_, ?_⟩
    · simp only [writeBytes, if_pos hstart]; exact h1
    · rw [h2, List.length_set]
    · intro j hj
      have hj' : j < start + 1 ∨ (start + 1) + bs.length ≤ j := by
        simp at hj ⊢; omega
      have hne : start ≠ j := by simp at hj; omega
      rw [h3 j hj', List.getElem?_set_ne hne]
    · intro i hi
      cases i with
      | zero =>
        have h0 : res[start]? = (outs.set start b)[start]? := by
          have := h3 start (Or.inl (by omega))
          exact this
        rw [Nat.add_zero, h0, List.getElem?_set_self hstart]
        simp
      | succ i =>
        have hi' : i < bs.length := by simp at hi; omega
        have := h4 i hi'
        have harr : start + (i + 1) = (start + 1) + i := by omega
        rw [harr, this]
        simp

theorem writeBytes_oob (bytes : List Nat) : ∀ (outs : List Nat) (start : Nat),
    outs.length < start + bytes.length → bytes ≠ [] →
    writeBytes outs start bytes = .panicked := by
  induction bytes with
  | nil => intro outs start _ hne; exact absurd rfl hne
  | cons b bs ih =>
    intro outs start h _
    by_cases hstart : start < outs.length
    · cases bs with
      | nil => simp at h; omega
      | cons b' bs' =>
        simp only [writeBytes, if_pos hstart]
        apply ih
        · simp only [List.length_set]; simp at h ⊢; omega
        · simp
    · simp only [writeBytes, if_neg hstart]

/-- C8: the claim fails — for a mapped 8-bit entry (byte span 1), writing a
`U16` value copies both encoded bytes, so byte 1 of the image (the next
entry's region) changes, though `min(len, byte_count) = 1` and the claim
says nothing past the entry's region is written. -/
theorem C8_region_overrun_counterexample :
    set_pdo_value
      [[⟨2, .outputs, [⟨0x1600, [⟨⟨0x1600, 1⟩, 8⟩, ⟨⟨0x1600, 2⟩, 8⟩]⟩]⟩]]
      [⟨[], [(⟨0x1600, 1⟩, ⟨⟨0x1600, 1⟩, some .u16, 8⟩),
             (⟨0x1600, 2⟩, ⟨⟨0x1600, 2⟩, some .u8, 8⟩)]⟩]
      [[0, 0, 0x77]] 0 ⟨0x1600, 1⟩ (.u16 0xBEEF)
      = .ok [0xEF, 0xBE, 0x77]
    ∧ byte_cnt 8 = 1
    ∧ (pdo_offsets [⟨0x1600, [⟨⟨0x1600, 1⟩, 8⟩, ⟨⟨0x1600, 2⟩, 8⟩]⟩]).find?
        (fun p => p.1 == ⟨0x1600, 2⟩) = some ⟨⟨0x1600, 2⟩, ⟨1, 0⟩⟩
    ∧ ([0xEF, 0xBE, 0x77] : List Nat)[1]? ≠ ([0, 0, 0x77] : List Nat)[1]? := by
  refine ⟨by decide, by decide, by decide, by decide⟩

/-- C8 (amended): a non-`Bool` write copies exactly the encoded bytes —
all `len` of them — into the output image starting at the entry's byte
offset, with no bounds check against the entry's `byte_count`: when the
copy fits in the image it overwrites exactly bytes
`[byte_offset, byte_offset + len)` (even past the entry's own region) and
leaves the rest unchanged; when it runs past the image it is a Rust
index-out-of-bounds panic. -/
theorem C8_nonbool_write (mapping : List (List PdoAssignment))
    (sdos : List ObjectDict) (slaves : List (List Nat))
    (slave : Nat) (idx : EntryIdx) (v : Value)
    (asgn : PdoAssignment) (po : EntryIdx × Offset) (e : PdoEntryInfo)
    (dt : DataType) (outs bytes : List Nat)
    (hasg : pdoMappingOutputs mapping slave = some asgn)
    (hoff : (pdo_offsets asgn.pdos).find? (fun p => p.1 == idx) = some po)
    (he : ((asgn.pdos.find? (fun info => info.idx == idx.idx)).map
        PdoInfo.entries).bind
      (fun es => es.find? (fun x => x.sdo == idx)) = some e)
    (hdt : (sdos[slave]?).bind
        (fun d => (d.entries.find? (fun p => p.1 == e.sdo)).bind
          (fun p => p.2.dataType)) = some dt)
    (hnb : dt ≠ .bool)
    (houts : slaves[slave]? = some outs)
    (hbytes : value_to_bytes v = .ok bytes) :
    (po.2.byte + bytes.length ≤ outs.length →
      ∃ res, set_pdo_value mapping sdos slaves slave idx v = .ok res
        ∧ res.length = outs.length
        ∧ (∀ j, j < po.2.byte ∨ po.2.byte + bytes.length ≤ j →
            res[j]? = outs[j]?)
        ∧ (∀ i, i < bytes.length → res[po.2.byte + i]? = bytes[i]?))
    ∧ (outs.length < po.2.byte + bytes.length → bytes ≠ [] →
        set_pdo_value mapping sdos slaves slave idx v = .panicked) := by
  have hred : set_pdo_value mapping sdos slaves slave idx v
      = writeBytes outs po.2.byte bytes := by
    simp only [set_pdo_value, hasg, hoff, he, hdt, houts, hbytes]
    simp [hnb]
  constructor
  · intro hle
    obtain ⟨res, h1, h2, h3, h4⟩ := writeBytes_ok bytes outs po.2.byte hle
    exact ⟨res, hred.trans h1, h2, h3, h4⟩
  · intro hlt hne
    exact hred.trans (writeBytes_oob bytes outs po.2.byte hlt hne)

/-- C8 witness: the amended statement applied to the concrete overrun
fixture — the two-byte `U16` copy lands at bytes 0 and 1. -/
theorem C8_nonbool_write_witness :
    ∃ res, set_pdo_value
      [[⟨2, .outputs, [⟨0x1600, [⟨⟨0x1600, 1⟩, 8⟩, ⟨⟨0x1600, 2⟩, 8⟩]⟩]⟩]]
      [⟨[], [(⟨0x1600, 1⟩, ⟨⟨0x1600, 1⟩, some .u16, 8⟩),
             (⟨0x1600, 2⟩, ⟨⟨0x1600, 2⟩, some .u8, 8⟩)]⟩]
      [[0, 0, 0x77]] 0 ⟨0x1600, 1⟩ (.u16 0xBEEF) = .ok res
      ∧ res.length = 3
      ∧ (∀ i, i < 2 → res[0 + i]? = ([0xEF, 0xBE] : List Nat)[i]?) :=
  match (C8_nonbool_write
      [[⟨2, .outputs, [⟨0x1600, [⟨⟨0x1600, 1⟩, 8⟩, ⟨⟨0x1600, 2⟩, 8⟩]⟩]⟩]]
      [⟨[], [(⟨0x1600, 1⟩, ⟨⟨0x1600, 1⟩, some .u16, 8⟩),
             (⟨0x1600, 2⟩, ⟨⟨0x1600, 2⟩, some .u8, 8⟩)]⟩]
      [[0, 0, 0x77]] 0 ⟨0x1600, 1⟩ (.u16 0xBEEF)
      ⟨2, .outputs, [⟨0x1600, [⟨⟨0x1600, 1⟩, 8⟩, ⟨⟨0x1600, 2⟩, 8⟩]⟩]⟩
      ⟨⟨0x1600, 1⟩, ⟨0, 0⟩⟩ ⟨⟨0x1600, 1⟩, 8⟩ .u16 [0, 0, 0x77]
      [0xEF, 0xBE] rfl (by decide) (by decide) rfl (by decide) rfl
      rfl).1 (by decide) with
  | ⟨res, h1, h2, _, h4⟩ => ⟨res, h1, by rw [h2]; rfl, h4⟩

theorem fill_length (n : Nat) (bs : List Nat) : (fill n bs).length = n := by
  simp [fill, List.length_take, List.length_append, List.length_replicate]

theorem mem_fill_lt (n : Nat) (bs : List Nat) (h : ∀ b ∈ bs, b < 256) :
    ∀ b ∈ fill n bs, b < 256 := by
  intro b hb
  have hb' := List.mem_of_mem_take hb
  rcases List.mem_append.mp hb' with h1 | h2
  · exact h b h1
  · rw [List.eq_of_mem_replicate h2]; norm_num

/-- C5: the 32-bit packed PDO entry descriptor `d` is decoded by
`pdo_entry_info` exactly as bits 0–7 = bit-length (`d mod 256`),
bits 8–15 = target subindex (`(d / 256) mod 256`) and
bits 16–31 = target object index (`d / 65536`). -/
theorem C5_entry_descriptor (bus : Bus) (slave : Nat) (eidx : EntryIdx)
    (bs : List Nat) (hread : bus.sdoRead slave eidx = some bs)
    (h256 : ∀ b ∈ bs, b < 256) :
    pdo_entry_info bus slave eidx
      = .ok ⟨⟨bytesToNatLE (fill 4 bs) / 65536,
              bytesToNatLE (fill 4 bs) / 256 % 256⟩,
             bytesToNatLE (fill 4 bs) % 256⟩ := by
  have hlt : bytesToNatLE (fill 4 bs) < 2 ^ 32 := by
    have := bytesToNatLE_lt (fill 4 bs) (mem_fill_lt 4 bs h256)
    rwa [fill_length] at this
  set d := bytesToNatLE (fill 4 bs) with hd
  have h1 : d &&& 0xFF = d % 256 := by
    have := Nat.and_pow_two_sub_one_eq_mod d 8
    norm_num at this
    exact this
  have h2 : (d >>> 8) &&& 0xFF = d / 256 % 256 := by
    have := Nat.and_pow_two_sub_one_eq_mod (d >>> 8) 8
    norm_num at this
    rw [this, Nat.shiftRight_eq_div_pow]
  have h3 : (d >>> 16) % 65536 = d / 65536 := by
    rw [Nat.shiftRight_eq_div_pow]
    norm_num
    omega
  simp only [pdo_entry_info, read_sdo, hread, ← hd, h1, h2, h3]

/-- C5 witness: descriptor bytes `[0x08, 0x01, 0x00, 0x70]` (little
endian, value `0x70000108`) decode to entry `0x7000:01` with bit-length
8. -/
theorem C5_entry_descriptor_witness :
    pdo_entry_info
      ⟨1, fun _ _ => some [0x08, 0x01, 0x00, 0x70], fun _ => none⟩
      0 ⟨0x1600, 1⟩ = .ok ⟨⟨0x7000, 0x01⟩, 8⟩ := by
  have h := C5_entry_descriptor
    ⟨1, fun _ _ => some [0x08, 0x01, 0x00, 0x70], fun _ => none⟩
    0 ⟨0x1600, 1⟩ [0x08, 0x01, 0x00, 0x70] rfl (by decide)
  rw [h]
  rfl

theorem mapE_forall₂ {α β : Type} (f : α → Except Error β) :
    ∀ (l : List α) (l' : List β), mapE f l = .ok l' →
    List.Forall₂ (fun x y => f x = .ok y) l l' := by
  intro l
  induction l with
  | nil =>
    intro l' h
    simp only [mapE, Except.ok.injEq] at h
    subst h
    exact List.Forall₂.nil
  | cons x xs ih =>
    intro l' h
    simp only [mapE] at h
    cases hfx : f x with
    | error e => rw [hfx] at h; exact absurd h (by simp)
    | ok y =>
      rw [hfx] at h
      cases hrec : mapE f xs with
      | error e => rw [hrec] at h; exact absurd h (by simp)
      | ok ys =>
        rw [hrec] at h
        simp only [Except.ok.injEq] at h
        subst h
        exact List.Forall₂.cons hfx (ih ys hrec)

theorem filterMapE_mem {α β : Type} (f : α → Except Error (Option β)) :
    ∀ (l : List α) (l' : List β), filterMapE f l = .ok l' →
    ∀ y ∈ l', ∃ x ∈ l, f x = .ok (some y) := by
  intro l
  induction l with
  | nil =>
    intro l' h
    simp only [filterMapE, Except.ok.injEq] at h
    subst h
    simp
  | cons x xs ih =>
    intro l' h y hy
    simp only [filterMapE] at h
    cases hfx : f x with
    | error e => rw [hfx] at h; exact absurd h (by simp)
    | ok o =>
      rw [hfx] at h
      cases o with
      | none =>
        obtain ⟨x', hx', hfx'⟩ := ih l' h y hy
        exact ⟨x', List.mem_cons_of_mem _ hx', hfx'⟩
      | some z =>
        cases hrec : filterMapE f xs with
        | error e => rw [hrec] at h; exact absurd h (by simp)
        | ok ys =>
          rw [hrec] at h
          simp only [Except.ok.injEq] at h
          subst h
          rcases List.mem_cons.mp hy with rfl | hy'
          · exact ⟨x, List.mem_cons_self x xs, hfx⟩
          · obtain ⟨x', hx', hfx'⟩ := ih ys hrec y hy'
            exact ⟨x', List.mem_cons_of_mem _ hx', hfx'⟩

theorem filterMapE_pairwise {α β : Type} (f : α → Except Error (Option β))
    (R : α → α → Prop) (S : β → β → Prop) :
    ∀ (l : List α) (l' : List β), l.Pairwise R → filterMapE f l = .ok l' →
    (∀ x y x' y', R x x' → f x = .ok (some y) → f x' = .ok (some y') →
      S y y') →
    l'.Pairwise S := by
  intro l
  induction l with
  | nil =>
    intro l' _ h _
    simp only [filterMapE, Except.ok.injEq] at h
    subst h
    exact List.Pairwise.nil
  | cons x xs ih =>
    intro l' hpw h hf
    simp only [filterMapE] at h
    have hpwxs := hpw.of_cons
    cases hfx : f x with
    | error e => rw [hfx] at h; exact absurd h (by simp)
    | ok o =>
      rw [hfx] at h
      cases o with
      | none => exact ih l' hpwxs h hf
      | some z =>
        cases hrec : filterMapE f xs with
        | error e => rw [hrec] at h; exact absurd h (by simp)
        | ok ys =>
          rw [hrec] at h
          simp only [Except.ok.injEq] at h
          subst h
          refine List.Pairwise.cons ?_ (ih ys hpwxs hrec hf)
          intro y hy
          obtain ⟨x', hx', hfx'⟩ := filterMapE_mem f xs ys hrec y hy
          exact hf x z x' y (List.rel_of_pairwise_cons hpw hx') hfx hfx'

theorem forall₂_mem_right {α β : Type} {Q : α → β → Prop}
    {l : List α} {l' : List β} (h : List.Forall₂ Q l l') :
    ∀ y ∈ l', ∃ x ∈ l, Q x y := by
  induction h with
  | nil => simp
  | cons hq _ ih =>
    intro y hy
    rcases List.mem_cons.mp hy with rfl | hy'
    · exact ⟨_, List.mem_cons_self _ _, hq⟩
    · obtain ⟨x, hx, hqx⟩ := ih y hy'
      exact ⟨x, List.mem_cons_of_mem _ hx, hqx⟩

theorem forall₂_pairwise {α β : Type} {Q : α → β → Prop}
    {R : α → α → Prop} {S : β → β → Prop} :
    ∀ {l : List α} {l' : List β}, List.Forall₂ Q l l' → l.Pairwise R →
    (∀ x y x' y', Q x y → Q x' y' → R x x' → S y y') → l'.Pairwise S := by
  intro l l' h
  induction h with
  | nil => intro _ _; exact List.Pairwise.nil
  | cons hq htail ih =>
    intro hpw hf
    refine List.Pairwise.cons ?_ (ih hpw.of_cons hf)
    intro y hy
    obtain ⟨x', hx', hqx'⟩ := forall₂_mem_right htail y hy
    exact hf _ _ _ _ hq hqx' (List.rel_of_pairwise_cons hpw hx')

theorem si_pdo_assign_shape (bus : Bus) (slave sm : Nat) (t : SmType)
    (a : PdoAssignment) (h : si_pdo_assign bus slave sm t = .ok a) :
    a.sm = sm ∧ a.smType = t := by
  simp only [si_pdo_assign] at h
  split at h
  · exact absurd h (by simp)
  · split at h
    · exact absurd h (by simp)
    · simp only [Except.ok.injEq] at h
      subst h
      exact ⟨rfl, rfl⟩

theorem sm_types_fst_pairwise (bus : Bus) (slave smCnt : Nat)
    (ts : List (Nat × SmType)) (h : sm_types bus slave smCnt = .ok ts) :
    ts.Pairwise (fun a b => a.1 < b.1) := by
  rw [sm_types] at h
  refine filterMapE_pairwise _ (· < ·) _ _ ts
    (List.pairwise_lt_range' 2 (smCnt - 1)) h ?_
  intro x y x' y' hR hx hy
  have hfst : ∀ (z : Nat) (w : Nat × SmType),
      (match (bus.smTypeTbl slave).bind (fun tbl => tbl[z]?) with
        | none => Except.error Error.invalidSmType
        | some tid =>
          match smTypeFromU8 tid with
          | none => Except.error Error.invalidSmType
          | some t =>
            if z = 2 ∧ t = SmType.mbxRd then Except.ok none
            else Except.ok (some (z, t))) = .ok (some w) → w.1 = z := by
    intro z w hw
    split at hw
    · exact absurd hw (by simp)
    · split at hw
      · exact absurd hw (by simp)
      · split at hw
        · exact absurd hw (by simp)
        · simp only [Except.ok.injEq, Option.some.injEq] at hw
          subst hw
          rfl
  rw [hfst x y hx, hfst x' y' hy]
  exact hR

theorem forall₂_strengthen_left {α β : Type} {Q : α → β → Prop}
    {P : α → Prop} :
    ∀ {l : List α} {l' : List β}, List.Forall₂ Q l l' → (∀ x ∈ l, P x) →
    List.Forall₂ (fun x y => Q x y ∧ P x) l l' := by
  intro l l' h
  induction h with
  | nil => intro _; exact List.Forall₂.nil
  | cons hq _ ih =>
    intro hp
    exact List.Forall₂.cons ⟨hq, hp _ (List.mem_cons_self _ _)⟩
      (ih fun x hx => hp x (List.mem_cons_of_mem _ hx))

/-- C6: a slave's resolved assignment list contains only Outputs- and
Inputs-typed sync managers, with every Outputs-typed assignment before
every Inputs-typed one and each group in ascending sync-manager index
order. -/
theorem C6_outputs_before_inputs (bus : Bus) (slave : Nat)
    (l : List PdoAssignment) (h : slave_mapping bus slave = .ok (some l)) :
    (∀ a ∈ l, a.smType = SmType.outputs ∨ a.smType = SmType.inputs)
    ∧ l.Pairwise (fun a b =>
        (a.smType = SmType.outputs ∧ b.smType = SmType.inputs)
        ∨ (a.smType = b.smType ∧ a.sm < b.sm)) := by
  simp only [slave_mapping] at h
  split at h
  · exact absurd h (by simp)
  next objCnt heq1 =>
    split at h
    · exact absurd h (by simp)
    next hgt =>
      split at h
      · exact absurd h (by simp)
      next smTypes hsm =>
        split at h
        · exact absurd h (by simp)
        next outAsgns hout =>
          split at h
          · exact absurd h (by simp)
          next inAsgns hin =>
            simp only [Except.ok.injEq, Option.some.injEq] at h
            subst h
            have hpw := sm_types_fst_pairwise bus slave _ smTypes hsm
            have hf2out := mapE_forall₂ _ _ _ hout
            have hf2in := mapE_forall₂ _ _ _ hin
            have hf2out' := forall₂_strengthen_left hf2out
              (fun p hp => (List.mem_filter.mp hp).2)
            have hf2in' := forall₂_strengthen_left hf2in
              (fun p hp => (List.mem_filter.mp hp).2)
            have houtType : ∀ a ∈ outAsgns, a.smType = SmType.outputs := by
              intro a ha
              obtain ⟨p, hp, hq⟩ := forall₂_mem_right hf2out' a ha
              have hp2 : p.2 = SmType.outputs := by
                have := hq.2; simpa using this
              rw [(si_pdo_assign_shape _ _ _ _ _ hq.1).2, hp2]
            have hinType : ∀ a ∈ inAsgns, a.smType = SmType.inputs := by
              intro a ha
              obtain ⟨p, hp, hq⟩ := forall₂_mem_right hf2in' a ha
              have hp2 : p.2 = SmType.inputs := by
                have := hq.2; simpa using this
              rw [(si_pdo_assign_shape _ _ _ _ _ hq.1).2, hp2]
            constructor
            · intro a ha
              rcases List.mem_append.mp ha with ha | ha
              · exact Or.inl (houtType a ha)
              · exact Or.inr (hinType a ha)
            · rw [List.pairwise_append]
              refine ⟨?_, ?_, ?_⟩
              · refine forall₂_pairwise hf2out' (hpw.filter _) ?_
                intro x y x' y' hq hq' hR
                right
                have h1 := si_pdo_assign_shape _ _ _ _ _ hq.1
                have h1' := si_pdo_assign_shape _ _ _ _ _ hq'.1
                have hx2 : x.2 = SmType.outputs := by
                  have := hq.2; simpa using this
                have hx2' : x'.2 = SmType.outputs := by
                  have := hq'.2; simpa using this
                refine ⟨?_, ?_⟩
                · rw [h1.2, h1'.2, hx2, hx2']
                · rw [h1.1, h1'.1]; exact hR
              · refine forall₂_pairwise hf2in' (hpw.filter _) ?_
                intro x y x' y' hq hq' hR
                right
                have h1 := si_pdo_assign_shape _ _ _ _ _ hq.1
                have h1' := si_pdo_assign_shape _ _ _ _ _ hq'.1
                have hx2 : x.2 = SmType.inputs := by
                  have := hq.2; simpa using this
                have hx2' : x'.2 = SmType.inputs := by
                  have := hq'.2; simpa using this
                refine ⟨?_, ?_⟩
                · rw [h1.2, h1'.2, hx2, hx2']
                · rw [h1.1, h1'.1]; exact hR
              · intro a ha b hb
                exact Or.inl ⟨houtType a ha, hinType b hb⟩

/-- C6 witness: a slave reporting SM2 = Outputs and SM3 = Inputs (each
with zero assigned PDOs) resolves to the ordered list
`[SM2/Outputs, SM3/Inputs]`. -/
theorem C6_outputs_before_inputs_witness :
    (∀ a ∈ ([⟨2, .outputs, []⟩, ⟨3, .inputs, []⟩] : List PdoAssignment),
      a.smType = SmType.outputs ∨ a.smType = SmType.inputs)
    ∧ ([⟨2, .outputs, []⟩, ⟨3, .inputs, []⟩] : List PdoAssignment).Pairwise
        (fun a b =>
          (a.smType = SmType.outputs ∧ b.smType = SmType.inputs)
          ∨ (a.smType = b.smType ∧ a.sm < b.sm)) :=
  C6_outputs_before_inputs
    ⟨1, fun _ idx => if idx.idx = 0x1C00 ∧ idx.subIdx = 0 then some [4]
         else some [0],
     fun _ => some [0, 0, 3, 4]⟩ 0
    [⟨2, .outputs, []⟩, ⟨3, .inputs, []⟩] rfl

theorem filterMapE_ok_forall₂ {α β : Type} (f : α → Except Error (Option β)) :
    ∀ (l : List α) (l' : List β), filterMapE f l = .ok l' →
    List.Forall₂ (fun x y => f x = .ok (some y))
      (l.filter (fun x => isOkSome (f x))) l' := by
  intro l
  induction l with
  | nil =>
    intro l' h
    simp only [filterMapE, Except.ok.injEq] at h
    subst h
    exact List.Forall₂.nil
  | cons x xs ih =>
    intro l' h
    simp only [filterMapE] at h
    rw [List.filter_cons]
    cases hfx : f x with
    | error e => rw [hfx] at h; exact absurd h (by simp)
    | ok o =>
      rw [hfx] at h
      cases o with
      | none => simpa [isOkSome] using ih l' h
      | some z =>
        cases hrec : filterMapE f xs with
        | error e => rw [hrec] at h; exact absurd h (by simp)
        | ok ys =>
          rw [hrec] at h
          simp only [Except.ok.injEq] at h
          subst h
          have hcons : List.Forall₂ (fun x y => f x = Except.ok (some y))
              (x :: List.filter (fun x => isOkSome (f x)) xs) (z :: ys) :=
            List.Forall₂.cons hfx (ih ys hrec)
          simpa [isOkSome] using hcons

theorem filter_range_getElem_gt (n p s : Nat) (pred : Nat → Bool)
    (h : ((List.range n).filter pred)[p]? = some s)
    (q : Nat) (hq : q < p) (hpredq : pred q = false) : p < s := by
  have hmem : s ∈ (List.range n).filter pred := List.getElem?_mem h
  have hpreds : pred s = true := (List.mem_filter.mp hmem).2
  have hsn : s < n := List.mem_range.mp (List.mem_filter.mp hmem).1
  have hsplit : List.range n
      = List.range (s + 1) ++ (List.range (n - s - 1)).map (fun y => s + 1 + y) := by
    rw [← List.range_add]
    congr 1
    omega
  set A := (List.range (s + 1)).filter pred with hA
  set B := ((List.range (n - s - 1)).map (fun y => s + 1 + y)).filter pred with hB
  have hLAB : (List.range n).filter pred = A ++ B := by
    rw [hsplit, List.filter_append]
  have helemA : ∀ x ∈ A, x ≤ s := by
    intro x hx
    have := List.mem_range.mp (List.mem_filter.mp hx).1
    omega
  have helemB : ∀ x ∈ B, s + 1 ≤ x := by
    intro x hx
    obtain ⟨y, _, hy⟩ := List.mem_map.mp (List.mem_filter.mp hx).1
    omega
  have hpA : p < A.length := by
    by_contra hge
    push_neg at hge
    rw [hLAB, List.getElem?_append_right hge] at h
    have : s ∈ B := List.getElem?_mem h
    have := helemB s this
    omega
  have hAle : A.length ≤ p + 1 := by
    by_contra hgt
    push_neg at hgt
    have hpw : ((List.range n).filter pred).Pairwise (· < ·) :=
      (List.pairwise_lt_range n).filter pred
    have hlenL : p + 1 < ((List.range n).filter pred).length := by
      rw [hLAB, List.length_append]
      omega
    obtain ⟨hp', hps⟩ := List.getElem?_eq_some_iff.mp h
    have hlt := List.pairwise_iff_getElem.mp hpw p (p + 1) hp' hlenL (by omega)
    rw [hps] at hlt
    have hnext : ((List.range n).filter pred)[p + 1]? = A[p + 1]? := by
      rw [hLAB]
      exact List.getElem?_append_left hgt
    have hmemA : A[p + 1]? = some ((List.range n).filter pred)[p + 1] := by
      rw [← hnext]
      exact (List.getElem?_eq_getElem hlenL)
    have : ((List.range n).filter pred)[p + 1] ∈ A := List.getElem?_mem hmemA
    have := helemA _ this
    omega
  have hps' : p ≤ s := by
    have : A.length ≤ s + 1 := by
      calc A.length ≤ (List.range (s + 1)).length := List.length_filter_le _ _
      _ = s + 1 := List.length_range (s + 1)
    omega
  rcases Nat.lt_or_ge p s with hlt | hge
  · exact hlt
  · exfalso
    have hps : p = s := by omega
    have hAfull : A.length = s + 1 := by omega
    have hAeq : A = List.range (s + 1) :=
      (List.filter_sublist _).eq_of_length
        (by rw [hAfull, List.length_range])
    have hqA : q ∈ A := by
      rw [hAeq]
      exact List.mem_range.mpr (by omega)
    have := (List.mem_filter.mp hqA).2
    rw [hpredq] at this
    exact absurd this (by simp)

/-- C10: `coe_pdo_info` contributes one element per non-skipped slave, in
ascending slave order and with no placeholder for skipped slaves; since
`pdo_values`/`set_pdo_value` index the resulting mapping positionally by
`SlavePos`, once any slave before position `p` was skipped, the element
looked up for slave `p` is the resolved mapping of a strictly later
slave. -/
theorem C10_skip_misaligns_mapping (bus : Bus)
    (ms : List (List PdoAssignment)) (hok : coe_pdo_info bus = .ok ms) :
    List.Forall₂ (fun s m => slave_mapping bus s = .ok (some m))
      ((List.range bus.slaveCount).filter
        (fun s => isOkSome (slave_mapping bus s))) ms
    ∧ (∀ p m q, q < p → slave_mapping bus q = .ok none →
        pdoMappingGet ms p = some m →
        ∃ s, p < s ∧ slave_mapping bus s = .ok (some m)) := by
  have hfa := filterMapE_ok_forall₂ (slave_mapping bus)
    (List.range bus.slaveCount) ms hok
  refine ⟨hfa, ?_⟩
  intro p m q hqp hq hget
  simp only [pdoMappingGet] at hget
  obtain ⟨hp, hpm⟩ := List.getElem?_eq_some_iff.mp hget
  obtain ⟨hlen, hrel⟩ := List.forall₂_iff_get.mp hfa
  have hpL : p < ((List.range bus.slaveCount).filter
      (fun s => isOkSome (slave_mapping bus s))).length := by omega
  have hrelp := hrel p hpL hp
  refine ⟨((List.range bus.slaveCount).filter
      (fun s => isOkSome (slave_mapping bus s))).get ⟨p, hpL⟩, ?_, ?_⟩
  · apply filter_range_getElem_gt bus.slaveCount p _
      (fun s => isOkSome (slave_mapping bus s)) ?_ q hqp ?_
    · exact List.getElem?_eq_getElem hpL
    · show isOkSome (slave_mapping bus q) = false
      rw [hq]
      rfl
  · have hm : (ms.get ⟨p, hp⟩) = m := hpm
    rw [hm] at hrelp
    exact hrelp

/-- C10 witness: a three-slave bus whose slave 0 reports only two SM
communication types and is skipped; the resolution yields two elements and
the positional lookup for slave 1 returns slave 2's mapping. -/
theorem C10_skip_misaligns_mapping_witness :
    coe_pdo_info
      ⟨3,
       fun s idx => if idx.idx = 0x1C00 ∧ idx.subIdx = 0 then
           (if s = 0 then some [2] else some [4]) else some [0],
       fun s => if s = 2 then some [0, 0, 4, 4] else some [0, 0, 3, 4]⟩
      = .ok [[⟨2, .outputs, []⟩, ⟨3, .inputs, []⟩],
             [⟨2, .inputs, []⟩, ⟨3, .inputs, []⟩]]
    ∧ pdoMappingGet
        [[⟨2, .outputs, []⟩, ⟨3, .inputs, []⟩],
         [⟨2, .inputs, []⟩, ⟨3, .inputs, []⟩]] 1
        = some [⟨2, .inputs, []⟩, ⟨3, .inputs, []⟩]
    ∧ ∃ s, 1 < s
        ∧ slave_mapping
          ⟨3,
           fun s idx => if idx.idx = 0x1C00 ∧ idx.subIdx = 0 then
               (if s = 0 then some [2] else some [4]) else some [0],
           fun s => if s = 2 then some [0, 0, 4, 4] else some [0, 0, 3, 4]⟩ s
          = .ok (some [⟨2, .inputs, []⟩, ⟨3, .inputs, []⟩]) :=
  ⟨rfl, rfl,
    (C10_skip_misaligns_mapping
      ⟨3,
       fun s idx => if idx.idx = 0x1C00 ∧ idx.subIdx = 0 then
           (if s = 0 then some [2] else some [4]) else some [0],
       fun s => if s = 2 then some [0, 0, 4, 4] else some [0, 0, 3, 4]⟩
      [[⟨2, .outputs, []⟩, ⟨3, .inputs, []⟩],
       [⟨2, .inputs, []⟩, ⟨3, .inputs, []⟩]] rfl).2 1
      [⟨2, .inputs, []⟩, ⟨3, .inputs, []⟩] 0 (by decide) rfl rfl⟩

/-- C1: the claim as stated fails — with two Outputs-typed sync managers
(SM2 mapping entry 0x7000:01, SM3 mapping entry 0x7010:01, 8 bits each)
the cyclic path restarts the bit counter per sync manager: both entries
are read at byte 0 (both decode 0xAA from the image `[0xAA, 0xBB]`),
whereas the claimed direction-wide running sum puts the second entry at
byte 1. -/
theorem C1_cross_sm_counterexample :
    coe_pdo_info
      ⟨1,
       fun _ idx =>
         if idx.idx = 0x1C00 then some [4]
         else if idx.idx = 0x1C12 ∧ idx.subIdx = 0 then some [1]
         else if idx.idx = 0x1C12 ∧ idx.subIdx = 1 then some [0x00, 0x16]
         else if idx.idx = 0x1600 ∧ idx.subIdx = 0 then some [1]
         else if idx.idx = 0x1600 ∧ idx.subIdx = 1 then some [8, 1, 0, 0x70]
         else if idx.idx = 0x1C13 ∧ idx.subIdx = 0 then some [1]
         else if idx.idx = 0x1C13 ∧ idx.subIdx = 1 then some [0x01, 0x16]
         else if idx.idx = 0x1601 ∧ idx.subIdx = 0 then some [1]
         else if idx.idx = 0x1601 ∧ idx.subIdx = 1 then some [8, 1, 0x10, 0x70]
         else none,
       fun _ => some [0, 0, 3, 3]⟩
      = .ok [[⟨2, .outputs, [⟨0x1600, [⟨⟨0x7000, 1⟩, 8⟩]⟩]⟩,
              ⟨3, .outputs, [⟨0x1601, [⟨⟨0x7010, 1⟩, 8⟩]⟩]⟩]]
    ∧ directionOffsets
        [⟨2, .outputs, [⟨0x1600, [⟨⟨0x7000, 1⟩, 8⟩]⟩]⟩,
         ⟨3, .outputs, [⟨0x1601, [⟨⟨0x7010, 1⟩, 8⟩]⟩]⟩] .outputs
        = [(⟨0x7000, 1⟩, ⟨0, 0⟩), (⟨0x7010, 1⟩, ⟨0, 0⟩)]
    ∧ runningSumOffsets 0 (directionEntries
        [⟨2, .outputs, [⟨0x1600, [⟨⟨0x7000, 1⟩, 8⟩]⟩]⟩,
         ⟨3, .outputs, [⟨0x1601, [⟨⟨0x7010, 1⟩, 8⟩]⟩]⟩] .outputs)
        = [(⟨0x7000, 1⟩, ⟨0, 0⟩), (⟨0x7010, 1⟩, ⟨1, 0⟩)]
    ∧ directionOffsets
        [⟨2, .outputs, [⟨0x1600, [⟨⟨0x7000, 1⟩, 8⟩]⟩]⟩,
         ⟨3, .outputs, [⟨0x1601, [⟨⟨0x7010, 1⟩, 8⟩]⟩]⟩] .outputs
        ≠ runningSumOffsets 0 (directionEntries
        [⟨2, .outputs, [⟨0x1600, [⟨⟨0x7000, 1⟩, 8⟩]⟩]⟩,
         ⟨3, .outputs, [⟨0x1601, [⟨⟨0x7010, 1⟩, 8⟩]⟩]⟩] .outputs)
    ∧ pdo_values_slave
        [[⟨2, .outputs, [⟨0x1600, [⟨⟨0x7000, 1⟩, 8⟩]⟩]⟩,
          ⟨3, .outputs, [⟨0x1601, [⟨⟨0x7010, 1⟩, 8⟩]⟩]⟩]]
        [⟨[], [(⟨0x7000, 1⟩, ⟨⟨0x7000, 1⟩, some .u8, 8⟩),
               (⟨0x7010, 1⟩, ⟨⟨0x7010, 1⟩, some .u8, 8⟩)]⟩]
        [0xAA, 0xBB] [] 0
        = some (.ok [(⟨0x7000, 1⟩, .u8 0xAA), (⟨0x7010, 1⟩, .u8 0xAA)]) :=
  ⟨rfl, rfl, rfl, by decide, rfl⟩

theorem range_split (k n : Nat) (h : k < n) :
    List.range n
      = List.range k ++ k :: (List.range (n - k - 1)).map (fun y => k + 1 + y) := by
  conv_lhs => rw [show n = k + (n - k - 1 + 1) from by omega]
  rw [List.range_add, List.range_succ_eq_map]
  simp only [List.map_cons, Nat.add_zero, List.map_map]
  congr 1
  congr 1
  apply List.map_congr_left
  intro a _
  simp only [Function.comp_apply]
  omega

theorem mapE_error_prefix {α β : Type} (f : α → Except Error β) :
    ∀ (l₁ : List α) (x : α) (l₂ : List α) (e : Error),
    (∀ y ∈ l₁, ∃ d, f y = .ok d) → f x = .error e →
    mapE f (l₁ ++ x :: l₂) = .error e := by
  intro l₁
  induction l₁ with
  | nil =>
    intro x l₂ e _ hx
    simp only [List.nil_append, mapE, hx]
  | cons y ys ih =>
    intro x l₂ e hpre hx
    obtain ⟨d, hd⟩ := hpre y (List.mem_cons_self _ _)
    simp only [List.cons_append, List.append_eq, mapE, hd,
      ih x l₂ e (fun z hz => hpre z (List.mem_cons_of_mem _ hz)) hx]

theorem filterMapE_error_prefix {α β : Type}
    (f : α → Except Error (Option β)) :
    ∀ (l₁ : List α) (x : α) (l₂ : List α) (e : Error),
    (∀ y ∈ l₁, ∃ d, f y = .ok d) → f x = .error e →
    filterMapE f (l₁ ++ x :: l₂) = .error e := by
  intro l₁
  induction l₁ with
  | nil =>
    intro x l₂ e _ hx
    simp only [List.nil_append, filterMapE, hx]
  | cons y ys ih =>
    intro x l₂ e hpre hx
    obtain ⟨d, hd⟩ := hpre y (List.mem_cons_self _ _)
    have hrec := ih x l₂ e (fun z hz => hpre z (List.mem_cons_of_mem _ hz)) hx
    cases d with
    | none => simp only [List.cons_append, List.append_eq, filterMapE, hd, hrec]
    | some z => simp only [List.cons_append, List.append_eq, filterMapE, hd, hrec]

/-- C3: the claim fails — a discovery (or resolution) failure for one
slave aborts the whole configuration pass, so the dictionaries and maps of
other slaves are not retained and later slaves are not processed: on a
two-slave bus where slave 0's dictionary is readable but slave 1's
object-description list read fails, `scan_slave_objects` returns only the
bare typed error; likewise `coe_pdo_info` when slave 1's first SDO read
fails although slave 0 resolves. -/
theorem C3_counterexample :
    scan_slave_objects
      ⟨2, fun s => if s = 0 then
          some ⟨1, fun _ => 0x6000, fun _ => 7, fun _ => 0,
                fun _ => true, fun _ => true, fun _ _ => 1, fun _ _ => 1⟩
        else none⟩
      = .error (.readOdList 1)
    ∧ read_od_list
      ⟨2, fun s => if s = 0 then
          some ⟨1, fun _ => 0x6000, fun _ => 7, fun _ => 0,
                fun _ => true, fun _ => true, fun _ _ => 1, fun _ _ => 1⟩
        else none⟩ 0
      = .ok ⟨[⟨0, 0x6000, 0, some 7⟩],
             [(⟨0x6000, 0⟩, ⟨⟨0x6000, 0⟩, some .bool, 1⟩)]⟩
    ∧ coe_pdo_info
      ⟨2,
       fun s idx => if s = 0 then
           (if idx.idx = 0x1C00 ∧ idx.subIdx = 0 then some [4] else some [0])
         else none,
       fun _ => some [0, 0, 3, 4]⟩
      = .error (.readSdo 1 ⟨0x1C00, 0⟩)
    ∧ slave_mapping
      ⟨2,
       fun s idx => if s = 0 then
           (if idx.idx = 0x1C00 ∧ idx.subIdx = 0 then some [4] else some [0])
         else none,
       fun _ => some [0, 0, 3, 4]⟩ 0
      = .ok (some [⟨2, .outputs, []⟩, ⟨3, .inputs, []⟩]) :=
  ⟨rfl, rfl, rfl, rfl⟩

/-- C3 (amended): during configuration, the first failing slave's typed
error aborts the whole pass: if every slave before `k` succeeds and slave
`k`'s dictionary read (resp. PDO resolution) fails with `e`, then
`scan_slave_objects` (resp. `coe_pdo_info`) returns exactly `.error e`,
retaining no dictionary or map for any slave. -/
theorem C3_first_failure_aborts_scan :
    (∀ (bus : OdBus) (k : Nat) (e : Error), k < bus.slaveCount →
      (∀ j, j < k → ∃ d, read_od_list bus j = .ok d) →
      read_od_list bus k = .error e →
      scan_slave_objects bus = .error e)
    ∧ (∀ (bus : Bus) (k : Nat) (e : Error), k < bus.slaveCount →
      (∀ j, j < k → ∃ r, slave_mapping bus j = .ok r) →
      slave_mapping bus k = .error e →
      coe_pdo_info bus = .error e) := by
  constructor
  · intro bus k e hk hpre hfail
    rw [scan_slave_objects, range_split k bus.slaveCount hk]
    exact mapE_error_prefix _ _ _ _ _
      (fun y hy => hpre y (List.mem_range.mp hy)) hfail
  · intro bus k e hk hpre hfail
    rw [coe_pdo_info, range_split k bus.slaveCount hk]
    exact filterMapE_error_prefix _ _ _ _ _
      (fun y hy => hpre y (List.mem_range.mp hy)) hfail

/-- C3 witness: the amended statement applied to the two counterexample
buses, with the failure at slave 1. -/
theorem C3_first_failure_aborts_scan_witness :
    scan_slave_objects
      ⟨2, fun s => if s = 0 then
          some ⟨1, fun _ => 0x6000, fun _ => 7, fun _ => 0,
                fun _ => true, fun _ => true, fun _ _ => 1, fun _ _ => 1⟩
        else none⟩
      = .error (.readOdList 1)
    ∧ coe_pdo_info
      ⟨2,
       fun s idx => if s = 0 then
           (if idx.idx = 0x1C00 ∧ idx.subIdx = 0 then some [4] else some [0])
         else none,
       fun _ => some [0, 0, 3, 4]⟩
      = .error (.readSdo 1 ⟨0x1C00, 0⟩) :=
  ⟨C3_first_failure_aborts_scan.1
    ⟨2, fun s => if s = 0 then
        some ⟨1, fun _ => 0x6000, fun _ => 7, fun _ => 0,
              fun _ => true, fun _ => true, fun _ _ => 1, fun _ _ => 1⟩
      else none⟩ 1 (.readOdList 1) (by decide)
    (fun j hj => ⟨⟨[⟨0, 0x6000, 0, some 7⟩],
        [(⟨0x6000, 0⟩, ⟨⟨0x6000, 0⟩, some .bool, 1⟩)]⟩, by
      interval_cases j
      rfl⟩) rfl,
   C3_first_failure_aborts_scan.2
    ⟨2,
     fun s idx => if s = 0 then
         (if idx.idx = 0x1C00 ∧ idx.subIdx = 0 then some [4] else some [0])
       else none,
     fun _ => some [0, 0, 3, 4]⟩ 1 (.readSdo 1 ⟨0x1C00, 0⟩) (by decide)
    (fun j hj => ⟨some [⟨2, .outputs, []⟩, ⟨3, .inputs, []⟩], by
      interval_cases j
      rfl⟩) rfl⟩

theorem od_items_loop_error_prefix (odl : OdListData) :
    ∀ (l₁ : List Nat) (x : Nat) (l₂ : List Nat),
    (∀ y ∈ l₁, odl.descOk y = true ∧ odl.oeOk y = true) →
    ∀ dict,
    (odl.descOk x = false →
      od_items_loop odl dict (l₁ ++ x :: l₂) = .error (.readOdDesc x))
    ∧ (odl.descOk x = true → odl.oeOk x = false →
      od_items_loop odl dict (l₁ ++ x :: l₂) = .error (.readOeList x)) := by
  intro l₁
  induction l₁ with
  | nil =>
    intro x l₂ _ dict
    constructor
    · intro hdesc
      simp only [List.nil_append, od_items_loop, read_od_desc, hdesc,
        Bool.false_eq_true, if_false]
    · intro hdesc hoe
      simp only [List.nil_append, od_items_loop, read_od_desc, hdesc, if_true,
        read_oe_list, hoe, Bool.false_eq_true, if_false]
  | cons y ys ih =>
    intro x l₂ hpre dict
    obtain ⟨hdy, hoy⟩ := hpre y (List.mem_cons_self _ _)
    have ih' := ih x l₂ (fun z hz => hpre z (List.mem_cons_of_mem _ hz))
    constructor
    · intro hdesc
      simp only [List.cons_append, List.append_eq, od_items_loop,
        read_od_desc, hdy, if_true, read_oe_list, hoy]
      exact (ih' _).1 hdesc
    · intro hdesc hoe
      simp only [List.cons_append, List.append_eq, od_items_loop,
        read_od_desc, hdy, if_true, read_oe_list, hoy]
      exact (ih' _).2 hdesc hoe

/-- C9: the claim fails — the typed failure of an object-description read
names only the SDO position, not the slave: two different slaves failing at
item 0 surface the *same* error value `ReadOdDesc(0)`, so the error cannot
identify the offending slave. -/
theorem C9_error_lacks_slave_counterexample :
    read_od_list
      ⟨2, fun _ => some ⟨1, fun _ => 0x6000, fun _ => 7, fun _ => 0,
        fun _ => false, fun _ => true, fun _ _ => 1, fun _ _ => 1⟩⟩ 0
      = .error (.readOdDesc 0)
    ∧ read_od_list
      ⟨2, fun _ => some ⟨1, fun _ => 0x6000, fun _ => 7, fun _ => 0,
        fun _ => false, fun _ => true, fun _ _ => 1, fun _ _ => 1⟩⟩ 1
      = .error (.readOdDesc 0)
    ∧ read_od_list
      ⟨2, fun _ => some ⟨1, fun _ => 0x6000, fun _ => 7, fun _ => 0,
        fun _ => false, fun _ => true, fun _ _ => 1, fun _ _ => 1⟩⟩ 0
      = read_od_list
      ⟨2, fun _ => some ⟨1, fun _ => 0x6000, fun _ => 7, fun _ => 0,
        fun _ => false, fun _ => true, fun _ _ => 1, fun _ _ => 1⟩⟩ 1 :=
  ⟨rfl, rfl, rfl⟩

/-- C9 (amended): a failed object-description or entry-list read during
dictionary discovery aborts that slave's discovery with a typed error
identifying the failing SDO position (`ReadOdDesc(k)`/`ReadOeList(k)`) —
but not the slave — and no dictionary (hence no partial object) is
returned. -/
theorem C9_discovery_failure_names_position (bus : OdBus) (slave : Nat)
    (odl : OdListData) (k : Nat)
    (hodl : bus.odList slave = some odl) (hk : k < odl.entries)
    (hpre : ∀ j, j < k → odl.descOk j = true ∧ odl.oeOk j = true) :
    (odl.descOk k = false →
      read_od_list bus slave = .error (.readOdDesc k))
    ∧ (odl.descOk k = true → odl.oeOk k = false →
      read_od_list bus slave = .error (.readOeList k)) := by
  have hloop := od_items_loop_error_prefix odl (List.range k) k
    ((List.range (odl.entries - k - 1)).map (fun y => k + 1 + y))
    (fun y hy => hpre y (List.mem_range.mp hy)) ⟨[], []⟩
  constructor
  · intro hdesc
    simp only [read_od_list, hodl]
    rw [range_split k odl.entries hk]
    exact hloop.1 hdesc
  · intro hdesc hoe
    simp only [read_od_list, hodl]
    rw [range_split k odl.entries hk]
    exact hloop.2 hdesc hoe

/-- C9 witness: the amended statement at a concrete bus — slave 0 failing
the description read of item 0, and another slave failing the entry-list
read of item 0. -/
theorem C9_discovery_failure_names_position_witness :
    read_od_list
      ⟨2, fun _ => some ⟨1, fun _ => 0x6000, fun _ => 7, fun _ => 0,
        fun _ => false, fun _ => true, fun _ _ => 1, fun _ _ => 1⟩⟩ 0
      = .error (.readOdDesc 0)
    ∧ read_od_list
      ⟨1, fun _ => some ⟨1, fun _ => 0x6000, fun _ => 7, fun _ => 0,
        fun _ => true, fun _ => false, fun _ _ => 1, fun _ _ => 1⟩⟩ 0
      = .error (.readOeList 0) :=
  ⟨(C9_discovery_failure_names_position
      ⟨2, fun _ => some ⟨1, fun _ => 0x6000, fun _ => 7, fun _ => 0,
        fun _ => false, fun _ => true, fun _ _ => 1, fun _ _ => 1⟩⟩ 0
      ⟨1, fun _ => 0x6000, fun _ => 7, fun _ => 0,
        fun _ => false, fun _ => true, fun _ _ => 1, fun _ _ => 1⟩ 0
      rfl (by decide) (fun j hj => absurd hj (by omega))).1 rfl,
   (C9_discovery_failure_names_position
      ⟨1, fun _ => some ⟨1, fun _ => 0x6000, fun _ => 7, fun _ => 0,
        fun _ => true, fun _ => false, fun _ _ => 1, fun _ _ => 1⟩⟩ 0
      ⟨1, fun _ => 0x6000, fun _ => 7, fun _ => 0,
        fun _ => true, fun _ => false, fun _ _ => 1, fun _ _ => 1⟩ 0
      rfl (by decide) (fun j hj => absurd hj (by omega))).2 rfl rfl⟩
